import Mathlib

/-!
# Verification of the doc-gen symbol index and cross-reference engine

A shallow embedding of `src/print_docs.py` (the symbol index, linker,
site-tree, dependency-graph, export-index and redirect components), with
theorems settling the frozen claims about it.

Python dictionaries are embedded as functions `String → Option α`
(respectively `ImportName → List α` for the `defaultdict(list)` file map),
with insertion-order overriding modelled by function override, and the
source's loops as `List.foldl` over the same step functions.
-/

namespace DocGen

/-- Modelled from the spec: `import_name.py` is not under `src/`.  Per spec
sections 3 and 4.1 a module identity carries a `project` (logical root, with
the sentinel `"."` for the tool's own project), ordered path segments, and
derived `url` / `raw_path` strings plus a dotted `name`; equality is
structural.  The derived fields are carried as data since every claim uses
them opaquely. -/
structure ImportName where
  project : String
  parts : List String
  url : String
  raw_path : String
  name : String
deriving DecidableEq, Repr

/-- Global immutable configuration of `print_docs.py` (site root plus the
commit/repository data used by `library_link`), threaded explicitly. -/
structure Config where
  siteRoot : String
  mathlibGithubRoot : String
  mathlibCommit : String
  leanCommit : String
deriving DecidableEq, Repr

/-- Declaration record as loaded from `export.json`, before its filename
string is parsed into an `ImportName` (see `separate_results`). -/
structure RawDecl where
  name : String
  filename : String
  kind : String
  is_meta : Bool
  line : Nat
  constructors : List (String × String)
  structure_fields : List (String × String)
  doc_string : String
  attributes : List String
deriving DecidableEq, Repr

/-- Declaration record after `separate_results` replaced its filename with
the parsed `ImportName`. -/
structure Decl where
  name : String
  filename : ImportName
  kind : String
  is_meta : Bool
  line : Nat
  constructors : List (String × String)
  structure_fields : List (String × String)
  doc_string : String
  attributes : List String
deriving DecidableEq, Repr

/-- The in-place update `obj[declaration.FILENAME] = ImportName.of(...)` of
`separate_results`, as a pure record translation.  The parse function
`ImportName.of` lives in the missing `import_name.py`, so it is a parameter
`of` throughout. -/
def processDecl (of : String → ImportName) (o : RawDecl) : Decl :=
  { name := o.name
    filename := of o.filename
    kind := o.kind
    is_meta := o.is_meta
    line := o.line
    constructors := o.constructors
    structure_fields := o.structure_fields
    doc_string := o.doc_string
    attributes := o.attributes }

/-- Python `dict` assignment `m[k] = v`, on the function embedding of maps. -/
def dictInsert {α : Type} (m : String → Option α) (k : String) (v : α) :
    String → Option α :=
  fun q => if q = k then some v else m q

/-- First-of-two `Option` choice (a `dict` lookup layered over an earlier
state of the same dictionary). -/
def optOr {α : Type} (a b : Option α) : Option α :=
  match a with
  | some x => some x
  | none => b

-- ------------------------------------------------------------------
-- String helper lemmas (the embedding concatenates many literals)
-- ------------------------------------------------------------------

theorem strAppendAssoc (a b c : String) : a ++ b ++ c = a ++ (b ++ c) := by
  apply String.ext
  simp [List.append_assoc]

theorem strAppendEmpty (a : String) : a ++ "" = a := by
  apply String.ext
  simp

theorem strEmptyAppend (a : String) : "" ++ a = a := by
  apply String.ext
  simp

-- ------------------------------------------------------------------
-- linkify_core  (src/print_docs.py lines 222-230)
-- ------------------------------------------------------------------

/-- Function `linkify_core(decl_name, text, loc_map)`: the core resolution
primitive.  `root` is the global `SITE_ROOT` and `lm` the `loc_map`. -/
def linkify_core (root : String) (lm : String → Option ImportName)
    (decl_name text : String) : String :=
  match lm decl_name with
  | some m =>
    let tooltip := if text ≠ decl_name then " title=\"" ++ decl_name ++ "\"" else ""
    "<a href=\"" ++ (root ++ m.url) ++ "#" ++ decl_name ++ "\"" ++ tooltip
      ++ ">" ++ text ++ "</a>"
  | none =>
    if text ≠ decl_name then
      "<span title=\"" ++ decl_name ++ "\">" ++ text ++ "</span>"
    else text

/-- Claim C1: `linkify_core` satisfies the resolution trichotomy: a known
name linked to itself yields a hyperlink to site root + module url with the
name as anchor and no tooltip; a known name with different display text
yields the same href plus a `title` tooltip carrying the name; an unknown
name displayed as itself passes through unchanged; an unknown name with
different display text yields a tooltip-only span. -/
theorem C1_linkify_core_trichotomy (root : String)
    (lm : String → Option ImportName) :
    (∀ s m, lm s = some m →
      linkify_core root lm s s =
        "<a href=\"" ++ (root ++ m.url) ++ "#" ++ s ++ "\"" ++ ">" ++ s ++ "</a>") ∧
    (∀ s t m, lm s = some m → t ≠ s →
      linkify_core root lm s t =
        "<a href=\"" ++ (root ++ m.url) ++ "#" ++ s ++ "\""
          ++ (" title=\"" ++ s ++ "\"") ++ ">" ++ t ++ "</a>") ∧
    (∀ n, lm n = none → linkify_core root lm n n = n) ∧
    (∀ n t, lm n = none → t ≠ n →
      linkify_core root lm n t = "<span title=\"" ++ n ++ "\">" ++ t ++ "</span>") := by
  refine ⟨?_, ?_, ?_, ?_⟩
  · intro s m h
    simp only [linkify_core, h]
    rw [if_neg (by simp), strAppendEmpty]
  · intro s t m h ht
    simp only [linkify_core, h]
    rw [if_pos ht]
  · intro n h
    simp only [linkify_core, h]
    rw [if_neg (by simp)]
  · intro n t h ht
    simp only [linkify_core, h]
    rw [if_pos ht]

/-- Closed instance of the C1 trichotomy at a concrete map and inputs. -/
theorem C1_linkify_core_trichotomy_witness :
    (fun _ => some (ImportName.mk "mathlib" ["order", "basic"]
        "order/basic.html" "order/basic.lean" "order.basic") :
          String → Option ImportName) "le_refl" =
      some (ImportName.mk "mathlib" ["order", "basic"]
          "order/basic.html" "order/basic.lean" "order.basic") ∧
    linkify_core "/" (fun _ => some (ImportName.mk "mathlib" ["order", "basic"]
        "order/basic.html" "order/basic.lean" "order.basic"))
        "le_refl" "le_refl" =
      "<a href=\"" ++ ("/" ++ "order/basic.html") ++ "#" ++ "le_refl" ++ "\""
        ++ ">" ++ "le_refl" ++ "</a>" := by
  refine ⟨rfl, ?_⟩
  exact (C1_linkify_core_trichotomy "/" (fun _ => some (ImportName.mk "mathlib"
      ["order", "basic"] "order/basic.html" "order/basic.lean" "order.basic"))).1
    "le_refl"
    (ImportName.mk "mathlib" ["order", "basic"] "order/basic.html"
      "order/basic.lean" "order.basic") rfl

-- ------------------------------------------------------------------
-- kind_of_decl  (src/print_docs.py lines 207-217)
-- ------------------------------------------------------------------

/-- Modelled from the spec: `mathlib_data_structures.py` is not under `src/`;
section 4.6 of the spec names the source kind tag for theorems. -/
def kindSrcThm : String := "theorem"

/-- Modelled from the spec: the source kind tag for constants (spec 4.6). -/
def kindSrcConst : String := "constant"

/-- Modelled from the spec: the source kind tag for axioms (spec 4.6). -/
def kindSrcAx : String := "axiom"

/-- Function `kind_of_decl(decl)`: derives the displayed kind.  The Python
function has no final `else`, so a declaration matching no case makes it fall
off the end and return the value `None` — embedded as `none` — rather than
raising an exception. -/
def kind_of_decl (d : Decl) : Option String :=
  if 0 < d.structure_fields.length then some "structure"
  else if 0 < d.constructors.length then some "inductive"
  else if d.kind = kindSrcThm then some "theorem"
  else if d.kind = kindSrcConst then some "const"
  else if d.kind = kindSrcAx then some "axiom"
  else none

/-- A declaration matching none of the kind-derivation cases: the claim says
the run aborts on it, but `kind_of_decl` simply falls through and returns the
ordinary value `None` (no exception anywhere in the function), so the run
continues with an undefined kind. -/
theorem C5_kind_fallthrough_counterexample :
    kind_of_decl (Decl.mk "weird" (ImportName.mk "mathlib" ["a"] "a.html" "a.lean" "a")
        "definition" false 1 [] [] "" []) = none ∧
    ∀ s, kind_of_decl (Decl.mk "weird" (ImportName.mk "mathlib" ["a"] "a.html" "a.lean" "a")
        "definition" false 1 [] [] "" []) ≠ some s := by
  have h0 : kind_of_decl (Decl.mk "weird"
      (ImportName.mk "mathlib" ["a"] "a.html" "a.lean" "a")
      "definition" false 1 [] [] "" []) = none := by decide
  refine ⟨h0, fun s h => ?_⟩
  rw [h0] at h
  exact Option.noConfusion h

/-- Claim C5 (amended): kind derivation is first-match-wins in the stated
priority order, but a declaration matching none of the cases is not a fatal
error: `kind_of_decl` silently returns `None` (here `none`) and the run
continues. -/
theorem C5_kind_priority :
    (∀ d : Decl, 0 < d.structure_fields.length → kind_of_decl d = some "structure") ∧
    (∀ d : Decl, ¬ 0 < d.structure_fields.length → 0 < d.constructors.length →
      kind_of_decl d = some "inductive") ∧
    (∀ d : Decl, ¬ 0 < d.structure_fields.length → ¬ 0 < d.constructors.length →
      d.kind = kindSrcThm → kind_of_decl d = some "theorem") ∧
    (∀ d : Decl, ¬ 0 < d.structure_fields.length → ¬ 0 < d.constructors.length →
      d.kind ≠ kindSrcThm → d.kind = kindSrcConst → kind_of_decl d = some "const") ∧
    (∀ d : Decl, ¬ 0 < d.structure_fields.length → ¬ 0 < d.constructors.length →
      d.kind ≠ kindSrcThm → d.kind ≠ kindSrcConst → d.kind = kindSrcAx →
      kind_of_decl d = some "axiom") ∧
    (∀ d : Decl, ¬ 0 < d.structure_fields.length → ¬ 0 < d.constructors.length →
      d.kind ≠ kindSrcThm → d.kind ≠ kindSrcConst → d.kind ≠ kindSrcAx →
      kind_of_decl d = none) := by
  refine ⟨?_, ?_, ?_, ?_, ?_, ?_⟩ <;> intro d <;> intros <;>
    simp_all [kind_of_decl]

/-- Closed instance of the C5 priority rule: a declaration with structure
fields gets kind `structure` even though its source tag is `constant`. -/
theorem C5_kind_priority_witness :
    0 < (Decl.mk "S" (ImportName.mk "mathlib" ["a"] "a.html" "a.lean" "a")
        "constant" false 1 [] [("S.x", "")] "" []).structure_fields.length ∧
    kind_of_decl (Decl.mk "S" (ImportName.mk "mathlib" ["a"] "a.html" "a.lean" "a")
        "constant" false 1 [] [("S.x", "")] "" []) = some "structure" := by
  constructor
  · decide
  · exact C5_kind_priority.1 _ (by decide)

-- ------------------------------------------------------------------
-- Note link pattern  (src/print_docs.py line 75; applied by the external
-- markdown2 link-patterns extra inside convert_markdown, lines 133-137)
-- ------------------------------------------------------------------

/-- Replacement template of the single entry of `LINK_PATTERNS`:
`SITE_ROOT + r'notes.html#\1'`, carrying the backreference `\1` verbatim. -/
def notePatternTemplate (siteRoot : String) : String :=
  siteRoot ++ "notes.html#\\1"

/-- Modelled from the spec: markdown2's link-patterns extra (an external
capability, out of scope per spec section 1) builds each emitted link's href
by expanding the regex backreferences of the url template; group 1 is the
note label.  This scanner replaces every `\1` of the template by the
captured label; `pending` records whether the previous character was a
so-far-unemitted backslash. -/
def expandBR (pending : Bool) (l : List Char) (label : String) : List Char :=
  match l with
  | [] => if pending then ['\\'] else []
  | c :: rest =>
    if pending then
      if c = '1' then label.toList ++ expandBR false rest label
      else if c = '\\' then '\\' :: expandBR true rest label
      else '\\' :: c :: expandBR false rest label
    else
      if c = '\\' then expandBR true rest label
      else c :: expandBR false rest label

/-- Backreference expansion of a whole template (see `expandBR`). -/
def expandBackref (l : List Char) (label : String) : List Char :=
  expandBR false l label

/-- Href emitted for an in-text citation `Note [label]`. -/
def noteLinkHref (siteRoot label : String) : String :=
  String.mk (expandBackref (notePatternTemplate siteRoot).toList label)

/-- Python `str.strip()`: drop leading and trailing whitespace. -/
def pyStrip (l : List Char) : List Char :=
  ((l.dropWhile Char.isWhitespace).reverse.dropWhile Char.isWhitespace).reverse

/-- Function `tag_id_of_name` (src/print_docs.py lines 219-220): the
slugification used for tactic tags — and the "spaces to hyphens" slug the
claim expects note anchors to use. -/
def tag_id_of_name (tag : String) : String :=
  String.mk ((pyStrip tag.toList).map (fun c => if c = ' ' then '-' else c))

theorem expandBR_cons_ne (c : Char) (l : List Char) (label : String)
    (hc : c ≠ '\\') :
    expandBR false (c :: l) label = c :: expandBR false l label := by
  simp [expandBR, hc]

theorem expandBackref_append_safe (l : List Char) (label : String)
    (h : ∀ c ∈ l, c ≠ '\\') :
    expandBackref (l ++ ['\\', '1']) label = l ++ label.toList := by
  induction l with
  | nil =>
    show expandBR false ['\\', '1'] label = label.toList
    simp [expandBR]
  | cons c rest ih =>
    have hc : c ≠ '\\' := h c (List.mem_cons_self c rest)
    have hr : ∀ x ∈ rest, x ≠ '\\' := fun x hx => h x (List.mem_cons_of_mem c hx)
    show expandBR false (c :: (rest ++ ['\\', '1'])) label = _
    rw [expandBR_cons_ne c _ label hc]
    exact congrArg (c :: ·) (ih hr)

/-- A label containing a space: the emitted href keeps the label verbatim,
which differs from the slugified anchor the claim requires. -/
theorem C9_note_anchor_counterexample :
    noteLinkHref "/" "sparse matrix" = "/notes.html#sparse matrix" ∧
    noteLinkHref "/" "sparse matrix" ≠
      "/" ++ "notes.html#" ++ tag_id_of_name "sparse matrix" := by
  constructor <;> decide

/-- Claim C9 (amended): the note cross-reference pattern links `Note [label]`
to the shared notes page anchored at the label text verbatim — the template
is `notes.html#\1` and no slugification (space-to-hyphen replacement) is
applied to the captured label. -/
theorem C9_note_anchor (siteRoot label : String)
    (h : ∀ c ∈ siteRoot.toList, c ≠ '\\') :
    noteLinkHref siteRoot label = siteRoot ++ "notes.html#" ++ label := by
  have hsplit : (notePatternTemplate siteRoot).toList =
      (siteRoot.toList ++ "notes.html#".toList) ++ ['\\', '1'] := by
    simp [notePatternTemplate, String.toList, List.append_assoc]
  have hns : ∀ c ∈ "notes.html#".toList, c ≠ '\\' := by decide
  have hsafe : ∀ c ∈ siteRoot.toList ++ "notes.html#".toList, c ≠ '\\' := by
    intro c hc
    rcases List.mem_append.mp hc with h1 | h2
    · exact h c h1
    · exact hns c h2
  apply String.ext
  show expandBackref (notePatternTemplate siteRoot).toList label = _
  rw [hsplit, expandBackref_append_safe _ label hsafe]
  simp [String.toList, List.append_assoc]

/-- Closed instance of the amended C9 statement at a concrete site root and
label (the href keeps the label text as the anchor). -/
theorem C9_note_anchor_witness :
    (∀ c ∈ "/".toList, c ≠ '\\') ∧
    noteLinkHref "/" "my note" = "/" ++ "notes.html#" ++ "my note" := by
  refine ⟨by decide, C9_note_anchor "/" "my note" (by decide)⟩

-- ------------------------------------------------------------------
-- Option and dictionary lemmas
-- ------------------------------------------------------------------

theorem optOr_none_right {α : Type} (a : Option α) : optOr a none = a := by
  cases a <;> rfl

theorem optOr_assoc {α : Type} (a b c : Option α) :
    optOr (optOr a b) c = optOr a (optOr b c) := by
  cases a <;> rfl

theorem dictInsert_apply {α : Type} (m : String → Option α) (k : String) (v : α)
    (q : String) : dictInsert m k v q = if q = k then some v else m q := rfl

theorem find_append_opt {α : Type} (p : α → Bool) (l1 l2 : List α) :
    (l1 ++ l2).find? p = optOr (l1.find? p) (l2.find? p) := by
  induction l1 with
  | nil => rfl
  | cons a l ih =>
    by_cases h : p a
    · simp [List.find?, h, optOr]
    · simp [List.find?, h, ih]

theorem foldl_dictInsert_const {α β : Type} (f : β → String) (v : α)
    (l : List β) (m0 : String → Option α) (k : String) :
    (l.foldl (fun m x => dictInsert m (f x) v) m0) k =
      if k ∈ l.map f then some v else m0 k := by
  induction l generalizing m0 with
  | nil => simp
  | cons x l ih =>
    rw [List.foldl_cons, ih]
    by_cases h1 : k ∈ l.map f
    · simp [h1]
    · by_cases h2 : k = f x
      · simp [h1, h2, dictInsert]
      · simp [h1, h2, dictInsert]

-- ------------------------------------------------------------------
-- separate_results  (src/print_docs.py lines 86-103)
-- ------------------------------------------------------------------

/-- Names a declaration registers in `loc_map`: its own name, each
constructor name, each structure-field name, and — when it has structure
fields — the synthesized `<name>.mk` (src lines 96-102). -/
def registeredNames (o : RawDecl) : List String :=
  o.name :: (o.constructors.map Prod.fst ++ o.structure_fields.map Prod.fst ++
    (if 0 < o.structure_fields.length then [o.name ++ ".mk"] else []))

/-- The `loc_map` insertions performed for one declaration, in source order:
name, constructors, structure fields, then the synthesized `.mk`. -/
def registerLoc (lm : String → Option ImportName) (i : ImportName)
    (o : RawDecl) : String → Option ImportName :=
  let lm1 := dictInsert lm o.name i
  let lm2 := o.constructors.foldl (fun m c => dictInsert m (Prod.fst c) i) lm1
  let lm3 := o.structure_fields.foldl (fun m s => dictInsert m (Prod.fst s) i) lm2
  if 0 < o.structure_fields.length then dictInsert lm3 (o.name ++ ".mk") i else lm3

/-- Loop body of `separate_results`: parse the filename, skip the whole
declaration when the parsed project is the self-referential sentinel `"."`,
otherwise append to `file_map[i_name]` and register the symbol names. -/
def sepStep (of : String → ImportName)
    (acc : (ImportName → List Decl) × (String → Option ImportName))
    (o : RawDecl) : (ImportName → List Decl) × (String → Option ImportName) :=
  let i := of o.filename
  if i.project = "." then acc
  else
    (fun m => if m = i then acc.1 m ++ [processDecl of o] else acc.1 m,
     registerLoc acc.2 i o)

/-- Function `separate_results(objs)`: builds `(file_map, loc_map)`. -/
def separate_results (of : String → ImportName) (objs : List RawDecl) :
    (ImportName → List Decl) × (String → Option ImportName) :=
  objs.foldl (sepStep of) (fun _ => [], fun _ => none)

/-- Spec-side closed form of the file map: the declarations parsed to module
`m`, in input order, excluding the self-referential sentinel project. -/
def fileMapSpec (of : String → ImportName) (objs : List RawDecl)
    (m : ImportName) : List Decl :=
  (objs.filter
      (fun o => decide (of o.filename = m ∧ (of o.filename).project ≠ "."))).map
    (processDecl of)

/-- Spec-side closed form of the location map: the last non-skipped
declaration registering the symbol wins, mapped to its parsed module. -/
def locMapSpec (of : String → ImportName) (objs : List RawDecl)
    (k : String) : Option ImportName :=
  (objs.reverse.find?
      (fun o => decide ((of o.filename).project ≠ "." ∧ k ∈ registeredNames o))).map
    (fun o => of o.filename)

theorem registerLoc_apply (lm : String → Option ImportName) (i : ImportName)
    (o : RawDecl) (k : String) :
    registerLoc lm i o k = if k ∈ registeredNames o then some i else lm k := by
  simp only [registerLoc]
  by_cases hf : 0 < o.structure_fields.length
  · rw [if_pos hf, dictInsert_apply, foldl_dictInsert_const, foldl_dictInsert_const,
      dictInsert_apply]
    simp only [registeredNames, if_pos hf]
    by_cases h1 : k = o.name ++ ".mk" <;> by_cases h2 : k ∈ o.structure_fields.map Prod.fst <;>
      by_cases h3 : k ∈ o.constructors.map Prod.fst <;> by_cases h4 : k = o.name <;>
      simp [h1, h2, h3, h4]
  · rw [if_neg hf, foldl_dictInsert_const, foldl_dictInsert_const, dictInsert_apply]
    simp only [registeredNames, if_neg hf]
    by_cases h2 : k ∈ o.structure_fields.map Prod.fst <;>
      by_cases h3 : k ∈ o.constructors.map Prod.fst <;> by_cases h4 : k = o.name <;>
      simp [h2, h3, h4]

theorem sep_foldl (of : String → ImportName) (objs : List RawDecl) :
    ∀ (fm : ImportName → List Decl) (lm : String → Option ImportName),
    (∀ m, (objs.foldl (sepStep of) (fm, lm)).1 m = fm m ++ fileMapSpec of objs m) ∧
    (∀ k, (objs.foldl (sepStep of) (fm, lm)).2 k = optOr (locMapSpec of objs k) (lm k)) := by
  induction objs with
  | nil =>
    intro fm lm
    constructor
    · intro m
      simp [fileMapSpec]
    · intro k
      simp [locMapSpec, optOr]
  | cons o objs ih =>
    intro fm lm
    rw [List.foldl_cons]
    by_cases hp : (of o.filename).project = "."
    · have hstep : sepStep of (fm, lm) o = (fm, lm) := by
        simp [sepStep, hp]
      rw [hstep]
      obtain ⟨ihf, ihl⟩ := ih fm lm
      constructor
      · intro m
        rw [ihf m]
        have : fileMapSpec of (o :: objs) m = fileMapSpec of objs m := by
          simp [fileMapSpec, List.filter_cons, hp]
        rw [this]
      · intro k
        rw [ihl k]
        have : locMapSpec of (o :: objs) k = locMapSpec of objs k := by
          simp only [locMapSpec, List.reverse_cons, find_append_opt]
          have hfo : List.find? (fun o2 => decide ((of o2.filename).project ≠ "." ∧
              k ∈ registeredNames o2)) [o] = none := by
            simp [List.find?, hp]
          rw [hfo, optOr_none_right]
        rw [this]
    · have hstep : sepStep of (fm, lm) o =
          (fun m => if m = of o.filename then fm m ++ [processDecl of o] else fm m,
           registerLoc lm (of o.filename) o) := by
        simp [sepStep, hp]
      rw [hstep]
      obtain ⟨ihf, ihl⟩ :=
        ih (fun m => if m = of o.filename then fm m ++ [processDecl of o] else fm m)
          (registerLoc lm (of o.filename) o)
      constructor
      · intro m
        rw [ihf m]
        by_cases hm : m = of o.filename
        · have hcond : (fun o2 => decide (of o2.filename = m ∧
              (of o2.filename).project ≠ ".")) o = true := by
            subst hm
            simp [hp]
          have : fileMapSpec of (o :: objs) m =
              processDecl of o :: fileMapSpec of objs m := by
            simp only [fileMapSpec, List.filter_cons, hcond]
            simp
          rw [this, if_pos hm, List.append_assoc]
          simp
        · have hcond : (fun o2 => decide (of o2.filename = m ∧
              (of o2.filename).project ≠ ".")) o = false := by
            simp only [decide_eq_false_iff_not]
            intro hand
            exact hm hand.1.symm
          have : fileMapSpec of (o :: objs) m = fileMapSpec of objs m := by
            simp only [fileMapSpec, List.filter_cons, hcond]
            simp
          rw [this, if_neg hm]
      · intro k
        rw [ihl k, registerLoc_apply]
        have hexp : locMapSpec of (o :: objs) k =
            optOr (locMapSpec of objs k)
              (if k ∈ registeredNames o then some (of o.filename) else none) := by
          simp only [locMapSpec, List.reverse_cons, find_append_opt]
          by_cases hk : k ∈ registeredNames o
          · have hfo : List.find? (fun o2 => decide ((of o2.filename).project ≠ "." ∧
                k ∈ registeredNames o2)) [o] = some o := by
              simp [List.find?, hp, hk]
            rw [hfo, if_pos hk]
            cases List.find? (fun o2 => decide ((of o2.filename).project ≠ "." ∧
                k ∈ registeredNames o2)) objs.reverse <;> rfl
          · have hfo : List.find? (fun o2 => decide ((of o2.filename).project ≠ "." ∧
                k ∈ registeredNames o2)) [o] = none := by
              simp [List.find?, hk]
            rw [hfo, if_neg hk]
            cases List.find? (fun o2 => decide ((of o2.filename).project ≠ "." ∧
                k ∈ registeredNames o2)) objs.reverse <;> rfl
        rw [hexp, optOr_assoc]
        by_cases hk : k ∈ registeredNames o
        · rw [if_pos hk, if_pos hk]
          rfl
        · rw [if_neg hk, if_neg hk]
          rfl

/-- Claim C4: `separate_results` skips entirely (absent from both maps)
every declaration whose parsed filename has the sentinel project `"."`; for
every other declaration it appends it (with parsed filename) to the file map
under its parsed identity and registers in the location map its own name,
each constructor name, each structure-field name, and the synthesized
`<name>.mk` when structure fields are nonempty — and performs no other
mutation: both maps equal their closed forms `fileMapSpec` / `locMapSpec`
computed from exactly those registrations. -/
theorem C4_separate_results_characterization (of : String → ImportName)
    (objs : List RawDecl) :
    (∀ m, (separate_results of objs).1 m = fileMapSpec of objs m) ∧
    (∀ k, (separate_results of objs).2 k = locMapSpec of objs k) := by
  obtain ⟨hf, hl⟩ := sep_foldl of objs (fun _ => []) (fun _ => none)
  constructor
  · intro m
    rw [separate_results, hf m]
    simp
  · intro k
    rw [separate_results, hl k, optOr_none_right]

-- ------------------------------------------------------------------
-- library_link and the redirect source-link resolver
-- (src/print_docs.py lines 299-317, 418-436)
-- ------------------------------------------------------------------

/-- Function `library_link(filename, line)`: the source-line link, rooted by
the fixed project table (`core`, `mathlib`); an unknown project yields the
empty string (handled downstream as a self-link). -/
def library_link (cfg : Config) (filename : ImportName) (line : Option Nat) :
    String :=
  let mathlibRoot := cfg.mathlibGithubRoot ++ "/blob/" ++ cfg.mathlibCommit ++ "/src/"
  let leanRoot := "https://github.com/leanprover-community/lean/blob/"
    ++ cfg.leanCommit ++ "/library/"
  let rootOpt : Option String :=
    if filename.project = "core" then some leanRoot
    else if filename.project = "mathlib" then some mathlibRoot
    else none
  match rootOpt with
  | none => ""
  | some root =>
    let r := root ++ String.intercalate "/" filename.parts ++ ".lean"
    match line with
    | some l => r ++ "#L" ++ toString l
    | none => r

/-- Function `name_in_decl(decl_name, decl)` (src lines 418-425): does the
declaration introduce this exact symbol name (own name, a structure field,
or a constructor)? -/
def name_in_decl (decl_name : String) (d : Decl) : Bool :=
  d.name == decl_name
    || (d.structure_fields.map Prod.fst).contains decl_name
    || (d.constructors.map Prod.fst).contains decl_name

/-- Python `decl_name[-3:] == '.mk'`. -/
def pyEndsMk (s : String) : Bool :=
  decide (3 ≤ s.toList.length) && (s.toList.drop (s.toList.length - 3) == ['.', 'm', 'k'])

/-- Python `decl_name[:-3]`. -/
def name_mk_strip (s : String) : String :=
  String.mk (s.toList.take (s.toList.length - 3))

/-- Function `library_link_from_decl_name(decl_name, decl_loc, file_map)`:
locate the first declaration of the module introducing the symbol and link
to its line; on failure retry once per `.mk` suffix stripped; running out of
declarations with no `.mk` suffix left raises (embedded as `none`). -/
def library_link_from_decl_name (cfg : Config) (fm : ImportName → List Decl)
    (decl_loc : ImportName) (decl_name : String) : Option String :=
  match (fm decl_loc).find? (fun d => name_in_decl decl_name d) with
  | some e => some (library_link cfg decl_loc (some e.line))
  | none =>
    if h : pyEndsMk decl_name = true then
      library_link_from_decl_name cfg fm decl_loc (name_mk_strip decl_name)
    else none
termination_by decl_name.toList.length
decreasing_by
  simp only [pyEndsMk, Bool.and_eq_true, decide_eq_true_eq, String.toList] at h
  simp only [name_mk_strip, String.toList, List.length_take]
  omega

theorem data_dot_mk : ".mk".data = ['.', 'm', 'k'] := rfl

theorem pyEndsMk_append (s : String) : pyEndsMk (s ++ ".mk") = true := by
  have hdata : (s ++ ".mk").data = s.data ++ ['.', 'm', 'k'] := by
    rw [String.data_append, data_dot_mk]
  have hlen : (s ++ ".mk").data.length = s.data.length + 3 := by
    rw [hdata, List.length_append]
    rfl
  simp only [pyEndsMk, Bool.and_eq_true, decide_eq_true_eq, beq_iff_eq, String.toList]
  constructor
  · omega
  · rw [hlen, hdata]
    have h3 : s.data.length + 3 - 3 = s.data.length := by omega
    rw [h3, List.drop_left]

theorem name_mk_strip_append (s : String) : name_mk_strip (s ++ ".mk") = s := by
  have hdata : (s ++ ".mk").data = s.data ++ ['.', 'm', 'k'] := by
    rw [String.data_append, data_dot_mk]
  have hlen : (s ++ ".mk").data.length = s.data.length + 3 := by
    rw [hdata, List.length_append]
    rfl
  apply String.ext
  show ((s ++ ".mk").toList.take ((s ++ ".mk").toList.length - 3)) = s.data
  simp only [String.toList]
  rw [hlen, hdata]
  have h3 : s.data.length + 3 - 3 = s.data.length := by omega
  rw [h3, List.take_left]

/-- Claim C2: for a declaration with nonempty structure fields (not skipped
by the sentinel filter, uniquely registering its `.mk` name, and with no
declaration of its module directly introducing the `.mk` name), building the
index puts `name ++ ".mk"` into the location map mapped to the owning
module, and the redirect source-link resolver on `name ++ ".mk"` falls back
by stripping `.mk` and returns exactly the same (existing) source link as
resolving `name` itself. -/
theorem C2_mk_registration_and_redirect (cfg : Config)
    (of : String → ImportName) (objs : List RawDecl) (o : RawDecl)
    (ho : o ∈ objs) (hf : 0 < o.structure_fields.length)
    (hm : (of o.filename).project ≠ ".")
    (huniq : ∀ o2 ∈ objs, (of o2.filename).project ≠ "." →
      (o.name ++ ".mk") ∈ registeredNames o2 → o2 = o)
    (hnodirect : ∀ d ∈ (separate_results of objs).1 (of o.filename),
      name_in_decl (o.name ++ ".mk") d = false) :
    (separate_results of objs).2 (o.name ++ ".mk") = some (of o.filename) ∧
    library_link_from_decl_name cfg (separate_results of objs).1 (of o.filename)
        (o.name ++ ".mk")
      = library_link_from_decl_name cfg (separate_results of objs).1 (of o.filename)
        o.name ∧
    ∃ link, library_link_from_decl_name cfg (separate_results of objs).1
        (of o.filename) o.name = some link := by
  obtain ⟨hfm, hlm⟩ := sep_foldl of objs (fun _ => []) (fun _ => none)
  have hmem : (o.name ++ ".mk") ∈ registeredNames o := by
    simp [registeredNames, hf]
  refine ⟨?_, ?_, ?_⟩
  · -- location-map registration
    rw [separate_results, hlm (o.name ++ ".mk"), optOr_none_right]
    have hsome : (objs.reverse.find?
        (fun o2 => decide ((of o2.filename).project ≠ "." ∧
          (o.name ++ ".mk") ∈ registeredNames o2))).isSome := by
      rw [List.find?_isSome]
      exact ⟨o, List.mem_reverse.mpr ho, by simp [hm, hmem]⟩
    obtain ⟨x, hx⟩ := Option.isSome_iff_exists.mp hsome
    have hxp := List.find?_some hx
    have hxm := List.mem_of_find?_eq_some hx
    simp only [decide_eq_true_eq] at hxp
    have hxo : x = o := huniq x (List.mem_reverse.mp hxm) hxp.1 hxp.2
    rw [locMapSpec, hx, hxo]
    rfl
  · -- redirect fallback
    have hnone : ((separate_results of objs).1 (of o.filename)).find?
        (fun d => name_in_decl (o.name ++ ".mk") d) = none := by
      rw [List.find?_eq_none]
      intro d hd
      rw [hnodirect d hd]
      exact Bool.false_ne_true
    rw [library_link_from_decl_name, hnone]
    rw [dif_pos (pyEndsMk_append o.name), name_mk_strip_append]
  · -- the parent name itself resolves
    have hpd : processDecl of o ∈ (separate_results of objs).1 (of o.filename) := by
      rw [separate_results, hfm (of o.filename)]
      simp only [List.nil_append, fileMapSpec]
      exact List.mem_map_of_mem (processDecl of)
        (List.mem_filter.mpr ⟨ho, by simp [hm]⟩)
    have hself : name_in_decl o.name (processDecl of o) = true := by
      simp [name_in_decl, processDecl]
    have hsome : (((separate_results of objs).1 (of o.filename)).find?
        (fun d => name_in_decl o.name d)).isSome := by
      rw [List.find?_isSome]
      exact ⟨processDecl of o, hpd, hself⟩
    obtain ⟨e, he⟩ := Option.isSome_iff_exists.mp hsome
    refine ⟨library_link cfg (of o.filename) (some e.line), ?_⟩
    rw [library_link_from_decl_name, he]

/-- Closed instance of C2 at a one-declaration corpus: the synthesized
`Latt.mk` is registered to the structure's module and its source redirect
agrees with the structure's own. -/
theorem C2_mk_registration_and_redirect_witness :
    0 < (RawDecl.mk "Latt" "f" "constant" false 7 [] [("Latt.sup", "x")] ""
        []).structure_fields.length ∧
    ((separate_results
        (fun _ => ImportName.mk "mathlib" ["order", "lattice"]
          "order/lattice.html" "order/lattice.lean" "order.lattice")
        [RawDecl.mk "Latt" "f" "constant" false 7 [] [("Latt.sup", "x")] "" []]).2
      ("Latt" ++ ".mk") =
        some (ImportName.mk "mathlib" ["order", "lattice"]
          "order/lattice.html" "order/lattice.lean" "order.lattice") ∧
    library_link_from_decl_name (Config.mk "/" "https://gh/mathlib" "mc" "lc")
        (separate_results
          (fun _ => ImportName.mk "mathlib" ["order", "lattice"]
            "order/lattice.html" "order/lattice.lean" "order.lattice")
          [RawDecl.mk "Latt" "f" "constant" false 7 [] [("Latt.sup", "x")] "" []]).1
        (ImportName.mk "mathlib" ["order", "lattice"]
          "order/lattice.html" "order/lattice.lean" "order.lattice")
        ("Latt" ++ ".mk")
      = library_link_from_decl_name (Config.mk "/" "https://gh/mathlib" "mc" "lc")
        (separate_results
          (fun _ => ImportName.mk "mathlib" ["order", "lattice"]
            "order/lattice.html" "order/lattice.lean" "order.lattice")
          [RawDecl.mk "Latt" "f" "constant" false 7 [] [("Latt.sup", "x")] "" []]).1
        (ImportName.mk "mathlib" ["order", "lattice"]
          "order/lattice.html" "order/lattice.lean" "order.lattice")
        "Latt" ∧
    ∃ link, library_link_from_decl_name (Config.mk "/" "https://gh/mathlib" "mc" "lc")
        (separate_results
          (fun _ => ImportName.mk "mathlib" ["order", "lattice"]
            "order/lattice.html" "order/lattice.lean" "order.lattice")
          [RawDecl.mk "Latt" "f" "constant" false 7 [] [("Latt.sup", "x")] "" []]).1
        (ImportName.mk "mathlib" ["order", "lattice"]
          "order/lattice.html" "order/lattice.lean" "order.lattice")
        "Latt" = some link) := by
  refine ⟨by decide, ?_⟩
  exact C2_mk_registration_and_redirect
    (Config.mk "/" "https://gh/mathlib" "mc" "lc")
    (fun _ => ImportName.mk "mathlib" ["order", "lattice"]
      "order/lattice.html" "order/lattice.lean" "order.lattice")
    [RawDecl.mk "Latt" "f" "constant" false 7 [] [("Latt.sup", "x")] "" []]
    (RawDecl.mk "Latt" "f" "constant" false 7 [] [("Latt.sup", "x")] "" [])
    (by decide) (by decide) (by decide) (by decide) (by decide)

-- ------------------------------------------------------------------
-- Export index  (src/print_docs.py lines 491-520)
-- ------------------------------------------------------------------

/-- One record of the export database, as built by `mk_export_map_entry`.
The parent declaration's extra `decl_header_html` field is produced by
template rendering, an external collaborator per spec section 1, and is not
modelled. -/
structure ExportEntry where
  filename : String
  kind : String
  is_meta : Bool
  line : Nat
  src_link : String
  docs_link : String
deriving DecidableEq, Repr

/-- Function `mk_export_map_entry(decl_name, filename, kind, is_meta, line)`
(src lines 491-499): note that `kind` is the raw source kind tag taken from
the declaration record, passed through unchanged. -/
def mk_export_map_entry (cfg : Config) (decl_name : String)
    (filename : ImportName) (kind : String) (is_meta : Bool) (line : Nat) :
    ExportEntry :=
  { filename := filename.raw_path
    kind := kind
    is_meta := is_meta
    line := line
    src_link := library_link cfg filename (some line)
    docs_link := cfg.siteRoot ++ filename.url ++ "#" ++ decl_name }

/-- Symbol names for which `mk_export_db` emits an entry from one
declaration: its own name, each constructor name, each field name (no
synthesized `.mk` here). -/
def introducedNames (d : Decl) : List String :=
  d.name :: (d.constructors.map Prod.fst ++ d.structure_fields.map Prod.fst)

/-- The export-db insertions of one declaration, in source order: own name,
constructors, structure fields — all carrying the declaration's filename,
raw kind tag, meta flag and line. -/
def exportInsertDecl (cfg : Config) (db : String → Option ExportEntry)
    (d : Decl) : String → Option ExportEntry :=
  let db1 := dictInsert db d.name
    (mk_export_map_entry cfg d.name d.filename d.kind d.is_meta d.line)
  let db2 := d.constructors.foldl
    (fun m c => dictInsert m (Prod.fst c)
      (mk_export_map_entry cfg (Prod.fst c) d.filename d.kind d.is_meta d.line)) db1
  d.structure_fields.foldl
    (fun m s => dictInsert m (Prod.fst s)
      (mk_export_map_entry cfg (Prod.fst s) d.filename d.kind d.is_meta d.line)) db2

/-- Function `mk_export_db(file_map)` (src lines 501-520), over the file
map's value lists. -/
def mk_export_db (cfg : Config) (values : List (List Decl)) :
    String → Option ExportEntry :=
  values.foldl (fun db decls => decls.foldl (exportInsertDecl cfg) db)
    (fun _ => none)

theorem foldl_exportInsert_pairs (cfg : Config) (fi : ImportName) (kd : String)
    (im : Bool) (ln : Nat) (l : List (String × String))
    (m0 : String → Option ExportEntry) (k : String) :
    (l.foldl (fun m c => dictInsert m (Prod.fst c)
        (mk_export_map_entry cfg (Prod.fst c) fi kd im ln)) m0) k =
      if k ∈ l.map Prod.fst then some (mk_export_map_entry cfg k fi kd im ln)
      else m0 k := by
  induction l generalizing m0 with
  | nil => simp
  | cons x l ih =>
    rw [List.foldl_cons, ih]
    by_cases h1 : k ∈ l.map Prod.fst
    · simp [h1]
    · by_cases h2 : k = x.1
      · simp [h1, h2, dictInsert]
      · simp [h1, h2, dictInsert]

theorem exportInsertDecl_apply (cfg : Config) (db : String → Option ExportEntry)
    (d : Decl) (k : String) :
    exportInsertDecl cfg db d k =
      if k ∈ introducedNames d then
        some (mk_export_map_entry cfg k d.filename d.kind d.is_meta d.line)
      else db k := by
  simp only [exportInsertDecl]
  rw [foldl_exportInsert_pairs, foldl_exportInsert_pairs, dictInsert_apply]
  simp only [introducedNames]
  by_cases h2 : k ∈ d.structure_fields.map Prod.fst <;>
    by_cases h3 : k ∈ d.constructors.map Prod.fst <;> by_cases h4 : k = d.name <;>
    simp [h2, h3, h4]

theorem foldl_export_all_eq (cfg : Config) (dd : Decl) (ds : List Decl)
    (db : String → Option ExportEntry) (k : String)
    (h : ∀ d ∈ ds, k ∈ introducedNames d → d = dd) :
    (ds.foldl (exportInsertDecl cfg) db) k =
      if ∃ d ∈ ds, k ∈ introducedNames d
        then some (mk_export_map_entry cfg k dd.filename dd.kind dd.is_meta dd.line)
        else db k := by
  induction ds generalizing db with
  | nil => simp
  | cons d ds ih =>
    rw [List.foldl_cons,
      ih _ (fun x hx hk => h x (List.mem_cons_of_mem d hx) hk)]
    by_cases hex : ∃ x ∈ ds, k ∈ introducedNames x
    · rw [if_pos hex, if_pos (by
        obtain ⟨x, hx, hkx⟩ := hex
        exact ⟨x, List.mem_cons_of_mem d hx, hkx⟩)]
    · rw [if_neg hex, exportInsertDecl_apply]
      by_cases hk : k ∈ introducedNames d
      · have hdd : d = dd := h d (List.mem_cons_self d ds) hk
        rw [if_pos hk, if_pos ⟨d, List.mem_cons_self d ds, hk⟩, hdd]
      · rw [if_neg hk, if_neg (by
          rintro ⟨x, hx, hkx⟩
          rcases List.mem_cons.mp hx with h1 | h1
          · exact hk (h1 ▸ hkx)
          · exact hex ⟨x, h1, hkx⟩)]

theorem foldl_values_all_eq (cfg : Config) (dd : Decl)
    (values : List (List Decl)) (db : String → Option ExportEntry) (k : String)
    (h : ∀ ds ∈ values, ∀ d ∈ ds, k ∈ introducedNames d → d = dd) :
    (values.foldl (fun db2 decls => decls.foldl (exportInsertDecl cfg) db2) db) k =
      if ∃ ds ∈ values, ∃ d ∈ ds, k ∈ introducedNames d
        then some (mk_export_map_entry cfg k dd.filename dd.kind dd.is_meta dd.line)
        else db k := by
  induction values generalizing db with
  | nil => simp
  | cons ds values ih =>
    rw [List.foldl_cons,
      ih _ (fun x hx d hd hk => h x (List.mem_cons_of_mem ds hx) d hd hk)]
    by_cases hex : ∃ x ∈ values, ∃ d ∈ x, k ∈ introducedNames d
    · rw [if_pos hex, if_pos (by
        obtain ⟨x, hx, d, hd, hkx⟩ := hex
        exact ⟨x, List.mem_cons_of_mem ds hx, d, hd, hkx⟩)]
    · rw [if_neg hex,
        foldl_export_all_eq cfg dd ds db k (fun d hd hk => h ds (List.mem_cons_self ds values) d hd hk)]
      by_cases hk : ∃ d ∈ ds, k ∈ introducedNames d
      · rw [if_pos hk, if_pos (by
          obtain ⟨d, hd, hkd⟩ := hk
          exact ⟨ds, List.mem_cons_self ds values, d, hd, hkd⟩)]
      · rw [if_neg hk, if_neg (by
          rintro ⟨x, hx, d, hd, hkd⟩
          rcases List.mem_cons.mp hx with h1 | h1
          · exact hk ⟨d, h1 ▸ hd, hkd⟩
          · exact hex ⟨x, h1, d, hd, hkd⟩)]

theorem mk_export_db_apply (cfg : Config) (values : List (List Decl))
    (ds : List Decl) (d : Decl) (k : String)
    (hds : ds ∈ values) (hd : d ∈ ds) (hk : k ∈ introducedNames d)
    (huniq : ∀ ds2 ∈ values, ∀ d2 ∈ ds2, k ∈ introducedNames d2 → d2 = d) :
    mk_export_db cfg values k =
      some (mk_export_map_entry cfg k d.filename d.kind d.is_meta d.line) := by
  rw [mk_export_db, foldl_values_all_eq cfg d values _ k huniq,
    if_pos ⟨ds, hds, d, hd, hk⟩]

/-- A declaration with structure fields whose raw source tag is `constant`:
its export entry's kind field is the raw tag `constant`, not the derived
kind `structure` of the kind-derivation rule — refuting the claim that the
export index carries the derived kind. -/
theorem C6_export_kind_counterexample :
    Option.map ExportEntry.kind
      (mk_export_db (Config.mk "/" "https://gh/mathlib" "mc" "lc")
        [[Decl.mk "S" (ImportName.mk "mathlib" ["a"] "a.html" "a.lean" "a")
          "constant" false 3 [] [("S.x", "")] "" []]] "S") = some "constant" ∧
    kind_of_decl (Decl.mk "S" (ImportName.mk "mathlib" ["a"] "a.html" "a.lean" "a")
      "constant" false 3 [] [("S.x", "")] "" []) = some "structure" ∧
    Option.map ExportEntry.kind
      (mk_export_db (Config.mk "/" "https://gh/mathlib" "mc" "lc")
        [[Decl.mk "S" (ImportName.mk "mathlib" ["a"] "a.html" "a.lean" "a")
          "constant" false 3 [] [("S.x", "")] "" []]] "S") ≠
      kind_of_decl (Decl.mk "S" (ImportName.mk "mathlib" ["a"] "a.html" "a.lean" "a")
        "constant" false 3 [] [("S.x", "")] "" []) := by
  refine ⟨by decide, by decide, by decide⟩

/-- Claim C6 (amended): for every declaration of every module, the export
index holds one entry per introduced symbol name (own name, each constructor
name, each field name), carrying the owning module's raw path, the
declaration's raw source kind tag (not the derived kind of the
kind-derivation rule), its meta flag and line number. -/
theorem C6_export_entries (cfg : Config) (values : List (List Decl))
    (ds : List Decl) (d : Decl) (k : String)
    (hds : ds ∈ values) (hd : d ∈ ds) (hk : k ∈ introducedNames d)
    (huniq : ∀ ds2 ∈ values, ∀ d2 ∈ ds2, k ∈ introducedNames d2 → d2 = d) :
    mk_export_db cfg values k =
      some (mk_export_map_entry cfg k d.filename d.kind d.is_meta d.line) ∧
    (mk_export_map_entry cfg k d.filename d.kind d.is_meta d.line).kind = d.kind ∧
    (mk_export_map_entry cfg k d.filename d.kind d.is_meta d.line).filename
      = d.filename.raw_path ∧
    (mk_export_map_entry cfg k d.filename d.kind d.is_meta d.line).is_meta
      = d.is_meta ∧
    (mk_export_map_entry cfg k d.filename d.kind d.is_meta d.line).line = d.line :=
  ⟨mk_export_db_apply cfg values ds d k hds hd hk huniq, rfl, rfl, rfl, rfl⟩

/-- Closed instance of the amended C6 statement: the lone declaration's
entry carries its raw path, raw kind tag, meta flag and line. -/
theorem C6_export_entries_witness :
    (Decl.mk "S" (ImportName.mk "mathlib" ["a"] "a.html" "a.lean" "a")
        "constant" false 3 [] [("S.x", "")] "" []) ∈
      [Decl.mk "S" (ImportName.mk "mathlib" ["a"] "a.html" "a.lean" "a")
        "constant" false 3 [] [("S.x", "")] "" []] ∧
    mk_export_db (Config.mk "/" "https://gh/mathlib" "mc" "lc")
      [[Decl.mk "S" (ImportName.mk "mathlib" ["a"] "a.html" "a.lean" "a")
        "constant" false 3 [] [("S.x", "")] "" []]] "S.x" =
      some (mk_export_map_entry (Config.mk "/" "https://gh/mathlib" "mc" "lc")
        "S.x" (ImportName.mk "mathlib" ["a"] "a.html" "a.lean" "a")
        "constant" false 3) := by
  refine ⟨by decide, ?_⟩
  exact (C6_export_entries (Config.mk "/" "https://gh/mathlib" "mc" "lc")
    [[Decl.mk "S" (ImportName.mk "mathlib" ["a"] "a.html" "a.lean" "a")
      "constant" false 3 [] [("S.x", "")] "" []]]
    [Decl.mk "S" (ImportName.mk "mathlib" ["a"] "a.html" "a.lean" "a")
      "constant" false 3 [] [("S.x", "")] "" []]
    (Decl.mk "S" (ImportName.mk "mathlib" ["a"] "a.html" "a.lean" "a")
      "constant" false 3 [] [("S.x", "")] "" [])
    "S.x" (by decide) (by decide) (by decide) (by decide)).1

/-- Claim C10: every export entry generated for a sub-symbol (constructor or
structure-field name) carries exactly the parent declaration's raw kind tag,
meta flag, line number and source link (and raw path), differing from the
parent's own entry only in its key and in the docs link, whose anchor is the
sub-symbol's name instead of the parent's. -/
theorem C10_subsymbol_entries (cfg : Config) (values : List (List Decl))
    (ds : List Decl) (d : Decl) (k : String)
    (hds : ds ∈ values) (hd : d ∈ ds)
    (hk : k ∈ d.constructors.map Prod.fst ∨ k ∈ d.structure_fields.map Prod.fst)
    (huk : ∀ ds2 ∈ values, ∀ d2 ∈ ds2, k ∈ introducedNames d2 → d2 = d)
    (hun : ∀ ds2 ∈ values, ∀ d2 ∈ ds2, d.name ∈ introducedNames d2 → d2 = d) :
    ∃ e p, mk_export_db cfg values k = some e ∧
      mk_export_db cfg values d.name = some p ∧
      e.filename = p.filename ∧ e.kind = d.kind ∧ p.kind = d.kind ∧
      e.is_meta = p.is_meta ∧ e.line = p.line ∧ e.src_link = p.src_link ∧
      e.docs_link = cfg.siteRoot ++ d.filename.url ++ "#" ++ k ∧
      p.docs_link = cfg.siteRoot ++ d.filename.url ++ "#" ++ d.name := by
  have hk2 : k ∈ introducedNames d := by
    rcases hk with h | h <;> simp [introducedNames, h]
  have hn : d.name ∈ introducedNames d := by simp [introducedNames]
  refine ⟨mk_export_map_entry cfg k d.filename d.kind d.is_meta d.line,
    mk_export_map_entry cfg d.name d.filename d.kind d.is_meta d.line,
    mk_export_db_apply cfg values ds d k hds hd hk2 huk,
    mk_export_db_apply cfg values ds d d.name hds hd hn hun,
    rfl, rfl, rfl, rfl, rfl, rfl, rfl, rfl⟩

/-- Closed instance of C10: the constructor entry of a small inductive
matches its parent entry except for key and docs-link anchor. -/
theorem C10_subsymbol_entries_witness :
    ("I.a" ∈ (Decl.mk "I" (ImportName.mk "mathlib" ["b"] "b.html" "b.lean" "b")
        "constant" false 9 [("I.a", "")] [] "" []).constructors.map Prod.fst ∨
      "I.a" ∈ (Decl.mk "I" (ImportName.mk "mathlib" ["b"] "b.html" "b.lean" "b")
        "constant" false 9 [("I.a", "")] [] "" []).structure_fields.map Prod.fst) ∧
    ∃ e p, mk_export_db (Config.mk "/" "https://gh/mathlib" "mc" "lc")
        [[Decl.mk "I" (ImportName.mk "mathlib" ["b"] "b.html" "b.lean" "b")
          "constant" false 9 [("I.a", "")] [] "" []]] "I.a" = some e ∧
      mk_export_db (Config.mk "/" "https://gh/mathlib" "mc" "lc")
        [[Decl.mk "I" (ImportName.mk "mathlib" ["b"] "b.html" "b.lean" "b")
          "constant" false 9 [("I.a", "")] [] "" []]]
        (Decl.mk "I" (ImportName.mk "mathlib" ["b"] "b.html" "b.lean" "b")
          "constant" false 9 [("I.a", "")] [] "" []).name = some p ∧
      e.filename = p.filename ∧
      e.kind = (Decl.mk "I" (ImportName.mk "mathlib" ["b"] "b.html" "b.lean" "b")
        "constant" false 9 [("I.a", "")] [] "" []).kind ∧
      p.kind = (Decl.mk "I" (ImportName.mk "mathlib" ["b"] "b.html" "b.lean" "b")
        "constant" false 9 [("I.a", "")] [] "" []).kind ∧
      e.is_meta = p.is_meta ∧ e.line = p.line ∧ e.src_link = p.src_link ∧
      e.docs_link = (Config.mk "/" "https://gh/mathlib" "mc" "lc").siteRoot ++
        (Decl.mk "I" (ImportName.mk "mathlib" ["b"] "b.html" "b.lean" "b")
          "constant" false 9 [("I.a", "")] [] "" []).filename.url ++ "#" ++ "I.a" ∧
      p.docs_link = (Config.mk "/" "https://gh/mathlib" "mc" "lc").siteRoot ++
        (Decl.mk "I" (ImportName.mk "mathlib" ["b"] "b.html" "b.lean" "b")
          "constant" false 9 [("I.a", "")] [] "" []).filename.url ++ "#" ++
        (Decl.mk "I" (ImportName.mk "mathlib" ["b"] "b.html" "b.lean" "b")
          "constant" false 9 [("I.a", "")] [] "" []).name := by
  refine ⟨by decide, ?_⟩
  exact C10_subsymbol_entries (Config.mk "/" "https://gh/mathlib" "mc" "lc")
    [[Decl.mk "I" (ImportName.mk "mathlib" ["b"] "b.html" "b.lean" "b")
      "constant" false 9 [("I.a", "")] [] "" []]]
    [Decl.mk "I" (ImportName.mk "mathlib" ["b"] "b.html" "b.lean" "b")
      "constant" false 9 [("I.a", "")] [] "" []]
    (Decl.mk "I" (ImportName.mk "mathlib" ["b"] "b.html" "b.lean" "b")
      "constant" false 9 [("I.a", "")] [] "" [])
    "I.a" (by decide) (by decide) (by decide) (by decide) (by decide)

-- ------------------------------------------------------------------
-- Dependency graph  (src/print_docs.py lines 147-165)
-- ------------------------------------------------------------------

/-- Python `Path(p).with_suffix('.lean')`: replace the extension of the last
path component (an extension exists when the component's last dot is not its
leading character), else append `.lean`. -/
def stemOf (base : List Char) : List Char :=
  if base.contains '.' then
    let tailAfter := (base.reverse.takeWhile (fun c => c ≠ '.')).length
    let i := base.length - 1 - tailAfter
    if 0 < i then base.take i else base
  else base

/-- The `.lean`-suffix normalization applied to every dependency path. -/
def withLeanSuffix (p : String) : String :=
  let comps := p.splitOn "/"
  let base := (comps.getLast?).getD ""
  let stem := String.mk (stemOf base.toList) ++ ".lean"
  String.intercalate "/" (comps.dropLast ++ [stem])

/-- The reverse index `{k.raw_path: k for k in file_map}` of `trace_deps`
(a `dict` comprehension: a later key with the same raw path wins). -/
def import_name_by_path (keys : List ImportName) (p : String) :
    Option ImportName :=
  keys.reverse.find? (fun k => k.raw_path == p)

/-- Per-path body of the `trace_deps` loops: count the attempt, and either
add the resolved edge and count the success, or drop the path (printing a
diagnostic) and continue. -/
def depStep (byPath : String → Option ImportName) (k : ImportName)
    (acc : List (ImportName × ImportName) × Nat × Nat) (p : String) :
    List (ImportName × ImportName) × Nat × Nat :=
  match byPath (withLeanSuffix p) with
  | some m => (acc.1 ++ [(k, m)], acc.2.1 + 1, acc.2.2 + 1)
  | none => (acc.1, acc.2.1 + 1, acc.2.2)

/-- Function `trace_deps(file_map)`: its edge list together with the
attempted / resolved counters `n` and `n_ok` (the nodes of the graph are the
keys themselves; the external `lean --deps` query is the `deps` oracle). -/
def trace_deps (keys : List ImportName) (deps : ImportName → List String) :
    List (ImportName × ImportName) × Nat × Nat :=
  keys.foldl
    (fun acc k => (deps k).foldl (depStep (import_name_by_path keys) k) acc)
    ([], 0, 0)

/-- Spec-side closed form of the dependency edges: one edge per referenced
path that resolves, in traversal order. -/
def depEdgesSpec (keys : List ImportName) (deps : ImportName → List String) :
    List (ImportName × ImportName) :=
  keys.flatMap (fun k => (deps k).filterMap
    (fun p => (import_name_by_path keys (withLeanSuffix p)).map (fun m => (k, m))))

/-- Spec-side count of attempted dependency links. -/
def depAttemptsSpec (keys : List ImportName) (deps : ImportName → List String) :
    Nat :=
  (keys.map (fun k => (deps k).length)).sum

theorem dep_inner (byPath : String → Option ImportName) (k : ImportName)
    (ps : List String) :
    ∀ acc : List (ImportName × ImportName) × Nat × Nat,
    ps.foldl (depStep byPath k) acc =
      (acc.1 ++ ps.filterMap
        (fun p => (byPath (withLeanSuffix p)).map (fun m => (k, m))),
       acc.2.1 + ps.length,
       acc.2.2 + (ps.filterMap
        (fun p => (byPath (withLeanSuffix p)).map (fun m => (k, m)))).length) := by
  induction ps with
  | nil =>
    intro acc
    simp
  | cons p ps ih =>
    intro acc
    rw [List.foldl_cons]
    cases hbp : byPath (withLeanSuffix p) with
    | some m =>
      rw [ih]
      simp only [depStep, hbp, List.filterMap_cons, Option.map_some', Prod.mk.injEq]
      refine ⟨?_, ?_, ?_⟩
      · rw [List.append_assoc]
        rfl
      · simp only [List.length_cons]
        omega
      · simp only [List.length_cons]
        omega
    | none =>
      rw [ih]
      simp only [depStep, hbp, List.filterMap_cons, Prod.mk.injEq]
      refine ⟨rfl, ?_, rfl⟩
      simp only [List.length_cons]
      omega

theorem dep_outer (byPath : String → Option ImportName)
    (deps : ImportName → List String) (ks : List ImportName) :
    ∀ acc : List (ImportName × ImportName) × Nat × Nat,
    ks.foldl (fun acc2 k => (deps k).foldl (depStep byPath k) acc2) acc =
      (acc.1 ++ ks.flatMap (fun k => (deps k).filterMap
        (fun p => (byPath (withLeanSuffix p)).map (fun m => (k, m)))),
       acc.2.1 + (ks.map (fun k => (deps k).length)).sum,
       acc.2.2 + (ks.flatMap (fun k => (deps k).filterMap
        (fun p => (byPath (withLeanSuffix p)).map (fun m => (k, m))))).length) := by
  induction ks with
  | nil =>
    intro acc
    simp
  | cons k ks ih =>
    intro acc
    rw [List.foldl_cons, dep_inner, ih]
    simp only [List.flatMap_cons, List.map_cons, List.sum_cons, List.length_append,
      Prod.mk.injEq]
    refine ⟨?_, ?_, ?_⟩
    · rw [List.append_assoc]
    · omega
    · omega

/-- Claim C8: during dependency-graph construction every referenced path
that matches (after `.lean`-suffix normalization) a known module's raw path
contributes a directed edge from the importing module to the matched one;
every non-matching path contributes no edge but is still counted among the
attempts, so the attempted / resolved diagnostic counters are the total
number of referenced paths and the number of edges; the build is a total
function — an unresolvable path never aborts it. -/
theorem C8_trace_deps_characterization (keys : List ImportName)
    (deps : ImportName → List String) :
    (trace_deps keys deps).1 = depEdgesSpec keys deps ∧
    (trace_deps keys deps).2.1 = depAttemptsSpec keys deps ∧
    (trace_deps keys deps).2.2 = (depEdgesSpec keys deps).length ∧
    ∀ k ∈ keys, ∀ p ∈ deps k, ∀ m,
      import_name_by_path keys (withLeanSuffix p) = some m →
      (k, m) ∈ (trace_deps keys deps).1 := by
  have h := dep_outer (import_name_by_path keys) deps keys ([], 0, 0)
  rw [trace_deps, h]
  refine ⟨by simp [depEdgesSpec], by simp [depAttemptsSpec], by simp [depEdgesSpec], ?_⟩
  intro k hk p hp m hm
  simp only [List.nil_append]
  exact List.mem_flatMap.mpr ⟨k, hk, List.mem_filterMap.mpr ⟨p, hp, by rw [hm]; rfl⟩⟩

-- ------------------------------------------------------------------
-- Site tree  (src/print_docs.py lines 167-191)
-- ------------------------------------------------------------------

/-- Python `sorted(...)` over strings (lexicographic). -/
def sortStrings (l : List String) : List String :=
  List.insertionSort (fun a b => a ≤ b) l

/-- Python `sorted(set(...))` over strings. -/
def sortedDedup (l : List String) : List String :=
  List.insertionSort (fun a b => a ≤ b) l.dedup

/-- First segments of the entries that still have further segments
(`dirname for dirname, *rest in filenames if rest != []`). -/
def headsWithRest (fns : List (List String)) : List String :=
  fns.filterMap (fun l =>
    match l with
    | d :: _ :: _ => some d
    | _ => none)

/-- Remaining segments of the entries grouped under head `d`
(`rest for dn, *rest in filenames if rest != [] and dn == dirname`). -/
def restsFor (fns : List (List String)) (d : String) : List (List String) :=
  fns.filterMap (fun l =>
    match l with
    | x :: rest => if x = d ∧ rest ≠ [] then some rest else none
    | [] => none)

/-- Entries whose segment sequence is exhausted
(`filename for filename, *rest in filenames if rest == []`). -/
def singletonsOf (fns : List (List String)) : List String :=
  fns.filterMap (fun l =>
    match l with
    | [x] => some x
    | _ => none)

/-- A node of the navigation tree: a `project`/`dir` grouping with children,
or a leaf page (whose dict in the source carries kind `"file"`). -/
inductive SiteEntry where
  | group (kind name path : String) (children : List SiteEntry)
  | leaf (name path : String)

/-- Python `'/'.join((path + [name])[1:])`. -/
def pathStr (path : List String) (nm : String) : String :=
  String.intercalate "/" ((path ++ [nm]).drop 1)

/-- Largest element length, bounding the recursion depth of the tree
builder. -/
def maxLen : List (List String) → Nat
  | [] => 0
  | l :: fns => max l.length (maxLen fns)

/-- Fuelled body of `mk_site_tree_core`: directory groups (sorted, deduped)
each built recursively one segment deeper, then leaf entries (sorted),
project kind exactly at the empty path. -/
def mstcFuel : Nat → List (List String) → List String → List SiteEntry
  | 0, _, _ => []
  | f + 1, fns, path =>
    (sortedDedup (headsWithRest fns)).map (fun d =>
      SiteEntry.group (if path = [] then "project" else "dir") d
        (pathStr path d) (mstcFuel f (restsFor fns d) (path ++ [d])))
    ++ (sortStrings (singletonsOf fns)).map (fun x =>
      SiteEntry.leaf x (pathStr path x ++ ".html"))

/-- Function `mk_site_tree_core(filenames, path)` (the fuel `maxLen + 1`
dominates the recursion depth, see `mstcFuel_congr`). -/
def mk_site_tree_core (fns : List (List String)) (path : List String) :
    List SiteEntry :=
  mstcFuel (maxLen fns + 1) fns path

/-- Function `mk_site_tree(file_map)`: each module contributes
`[project] + parts`. -/
def mk_site_tree (mods : List ImportName) : List SiteEntry :=
  mk_site_tree_core (mods.map (fun f => f.project :: f.parts)) []

/-- Leaf paths of the built tree, read back as segment sequences. -/
def flattenEntries : List SiteEntry → List (List String)
  | [] => []
  | SiteEntry.leaf nm _ :: es => [nm] :: flattenEntries es
  | SiteEntry.group _ nm _ cs :: es =>
    (flattenEntries cs).map (fun l => nm :: l) ++ flattenEntries es

def entryIsGroup : SiteEntry → Bool
  | SiteEntry.group _ _ _ _ => true
  | SiteEntry.leaf _ _ => false

def entryName : SiteEntry → String
  | SiteEntry.group _ nm _ _ => nm
  | SiteEntry.leaf nm _ => nm

/-- Kind of an entry; a leaf's dict carries the literal kind `"file"`. -/
def entryKind : SiteEntry → String
  | SiteEntry.group k _ _ _ => k
  | SiteEntry.leaf _ _ => "file"

/-- Well-formedness of one tree level and, recursively, of all levels below:
directory groups come first, sorted by name, then leaves, sorted by name;
groups carry kind `project` exactly at the root level and `dir` below. -/
inductive TreeWF : Bool → List SiteEntry → Prop where
  | intro (root : Bool) (es : List SiteEntry)
      (hsplit : ∀ e ∈ es.dropWhile entryIsGroup, entryIsGroup e = false)
      (hsd : List.Sorted (fun a b => a ≤ b) ((es.takeWhile entryIsGroup).map entryName))
      (hsl : List.Sorted (fun a b => a ≤ b) ((es.dropWhile entryIsGroup).map entryName))
      (hkind : ∀ e ∈ es.takeWhile entryIsGroup,
        entryKind e = (if root then "project" else "dir"))
      (hch : ∀ k nm p cs, SiteEntry.group k nm p cs ∈ es → TreeWF false cs) :
      TreeWF root es

theorem mem_headsWithRest (fns : List (List String)) (d : String) :
    d ∈ headsWithRest fns ↔ ∃ r, r ≠ [] ∧ (d :: r) ∈ fns := by
  rw [headsWithRest, List.mem_filterMap]
  constructor
  · rintro ⟨a, ha, hfa⟩
    match a, hfa with
    | x :: y :: t, hfa =>
      rw [Option.some.injEq] at hfa
      exact ⟨y :: t, by simp, hfa ▸ ha⟩
  · rintro ⟨r, hr, hmem⟩
    cases r with
    | nil => exact absurd rfl hr
    | cons y t => exact ⟨d :: y :: t, hmem, rfl⟩

theorem mem_restsFor (fns : List (List String)) (d : String) (r : List String) :
    r ∈ restsFor fns d ↔ (d :: r) ∈ fns ∧ r ≠ [] := by
  rw [restsFor, List.mem_filterMap]
  constructor
  · rintro ⟨a, ha, hfa⟩
    match a, hfa with
    | x :: rest, hfa =>
      have hfa2 : (if x = d ∧ rest ≠ [] then some rest else none) = some r := hfa
      by_cases hc : x = d ∧ rest ≠ []
      · rw [if_pos hc, Option.some.injEq] at hfa2
        subst hfa2
        exact ⟨hc.1 ▸ ha, hc.2⟩
      · rw [if_neg hc] at hfa2
        exact Option.noConfusion hfa2
  · rintro ⟨hmem, hr⟩
    refine ⟨d :: r, hmem, ?_⟩
    show (if d = d ∧ r ≠ [] then some r else none) = some r
    rw [if_pos ⟨rfl, hr⟩]

theorem mem_singletonsOf (fns : List (List String)) (x : String) :
    x ∈ singletonsOf fns ↔ [x] ∈ fns := by
  rw [singletonsOf, List.mem_filterMap]
  constructor
  · rintro ⟨a, ha, hfa⟩
    match a, hfa with
    | [y], hfa =>
      rw [Option.some.injEq] at hfa
      exact hfa ▸ ha
  · intro hmem
    exact ⟨[x], hmem, rfl⟩

theorem le_maxLen (fns : List (List String)) (l : List String) (h : l ∈ fns) :
    l.length ≤ maxLen fns := by
  induction fns with
  | nil => cases h
  | cons a t ih =>
    rcases List.mem_cons.mp h with h1 | h1
    · rw [maxLen, h1]
      exact Nat.le_max_left _ _
    · rw [maxLen]
      exact Nat.le_trans (ih h1) (Nat.le_max_right _ _)

theorem maxLen_le (fns : List (List String)) (n : Nat)
    (h : ∀ l ∈ fns, l.length ≤ n) : maxLen fns ≤ n := by
  induction fns with
  | nil => exact Nat.zero_le n
  | cons a t ih =>
    rw [maxLen]
    exact Nat.max_le.mpr ⟨h a (List.mem_cons_self a t),
      ih (fun l hl => h l (List.mem_cons_of_mem a hl))⟩

theorem maxLen_restsFor_lt (fns : List (List String)) (d : String)
    (hd : d ∈ headsWithRest fns) : maxLen (restsFor fns d) < maxLen fns := by
  obtain ⟨r, hr, hmem⟩ := (mem_headsWithRest fns d).mp hd
  have h2 : 2 ≤ maxLen fns := by
    have := le_maxLen fns (d :: r) hmem
    cases r with
    | nil => exact absurd rfl hr
    | cons y t =>
      simp only [List.length_cons] at this
      omega
  have hle : maxLen (restsFor fns d) ≤ maxLen fns - 1 := by
    apply maxLen_le
    intro l hl
    obtain ⟨hmem2, _⟩ := (mem_restsFor fns d l).mp hl
    have := le_maxLen fns (d :: l) hmem2
    simp only [List.length_cons] at this
    omega
  omega

theorem mem_sortedDedup (l : List String) (x : String) :
    x ∈ sortedDedup l ↔ x ∈ l := by
  rw [sortedDedup, (List.perm_insertionSort (fun a b => a ≤ b) l.dedup).mem_iff,
    List.mem_dedup]

theorem mem_sortStrings (l : List String) (x : String) :
    x ∈ sortStrings l ↔ x ∈ l := by
  rw [sortStrings, (List.perm_insertionSort (fun a b => a ≤ b) l).mem_iff]

theorem mstcFuel_congr (f : Nat) :
    ∀ (g : Nat) (fns : List (List String)) (path : List String),
    maxLen fns < f → maxLen fns < g →
    mstcFuel f fns path = mstcFuel g fns path := by
  induction f with
  | zero =>
    intro g fns path hf _
    exact absurd hf (Nat.not_lt_zero _)
  | succ f ih =>
    intro g fns path hf hg
    cases g with
    | zero => exact absurd hg (Nat.not_lt_zero _)
    | succ g =>
      rw [mstcFuel, mstcFuel]
      congr 1
      apply List.map_congr_left
      intro d hd
      have hd2 : d ∈ headsWithRest fns := (mem_sortedDedup _ d).mp hd
      have hlt := maxLen_restsFor_lt fns d hd2
      congr 1
      exact ih g (restsFor fns d) (path ++ [d]) (by omega) (by omega)

theorem mk_site_tree_core_eq (fns : List (List String)) (path : List String) :
    mk_site_tree_core fns path =
      (sortedDedup (headsWithRest fns)).map (fun d =>
        SiteEntry.group (if path = [] then "project" else "dir") d
          (pathStr path d) (mk_site_tree_core (restsFor fns d) (path ++ [d])))
      ++ (sortStrings (singletonsOf fns)).map (fun x =>
        SiteEntry.leaf x (pathStr path x ++ ".html")) := by
  rw [mk_site_tree_core, mstcFuel]
  congr 1
  apply List.map_congr_left
  intro d hd
  have hd2 : d ∈ headsWithRest fns := (mem_sortedDedup _ d).mp hd
  have hlt := maxLen_restsFor_lt fns d hd2
  congr 1
  rw [mk_site_tree_core]
  exact mstcFuel_congr _ _ _ _ (by omega) (Nat.lt_succ_self _)

theorem flattenEntries_append (a b : List SiteEntry) :
    flattenEntries (a ++ b) = flattenEntries a ++ flattenEntries b := by
  induction a with
  | nil => simp [flattenEntries]
  | cons e es ih =>
    cases e with
    | leaf nm p =>
      rw [List.cons_append, flattenEntries, flattenEntries, ih, List.cons_append]
    | group k nm p cs =>
      rw [List.cons_append, flattenEntries, flattenEntries, ih, List.append_assoc]

theorem flattenEntries_leaves (xs : List String) (path : List String) :
    flattenEntries (xs.map (fun x => SiteEntry.leaf x (pathStr path x ++ ".html")))
      = xs.map (fun x => [x]) := by
  induction xs with
  | nil => simp [flattenEntries]
  | cons x xs ih =>
    rw [List.map_cons, flattenEntries, ih, List.map_cons]

theorem flattenEntries_groups (ds : List String) (kd : String)
    (path : List String) (child : String → List SiteEntry) :
    flattenEntries (ds.map (fun d => SiteEntry.group kd d (pathStr path d) (child d)))
      = ds.flatMap (fun d => (flattenEntries (child d)).map (fun l => d :: l)) := by
  induction ds with
  | nil => simp [flattenEntries]
  | cons d ds ih =>
    rw [List.map_cons, flattenEntries, ih, List.flatMap_cons]

theorem mem_flatten_mk (n : Nat) :
    ∀ (fns : List (List String)) (path : List String), maxLen fns ≤ n →
    ([] : List String) ∉ fns →
    ∀ l, l ∈ flattenEntries (mk_site_tree_core fns path) ↔ l ∈ fns := by
  induction n with
  | zero =>
    intro fns path h0 hne l
    have hnil : fns = [] := by
      cases fns with
      | nil => rfl
      | cons a t =>
        have ha := le_maxLen (a :: t) a (List.mem_cons_self a t)
        have : a.length = 0 := by omega
        rw [List.length_eq_zero] at this
        exact absurd (this ▸ List.mem_cons_self a t) hne
    subst hnil
    rw [mk_site_tree_core_eq]
    constructor
    · intro hmem
      simp [headsWithRest, singletonsOf, sortedDedup, sortStrings,
        flattenEntries] at hmem
    · intro hmem
      cases hmem
  | succ n ih =>
    intro fns path h hne l
    rw [mk_site_tree_core_eq, flattenEntries_append, flattenEntries_groups,
      flattenEntries_leaves, List.mem_append, List.mem_flatMap]
    constructor
    · rintro (⟨d, hd, hl⟩ | hl)
      · rw [List.mem_map] at hl
        obtain ⟨l2, hl2, hcons⟩ := hl
        have hd2 : d ∈ headsWithRest fns := (mem_sortedDedup _ d).mp hd
        have hlt := maxLen_restsFor_lt fns d hd2
        have hne2 : ([] : List String) ∉ restsFor fns d := by
          intro hc
          exact ((mem_restsFor fns d []).mp hc).2 rfl
        rw [ih (restsFor fns d) (path ++ [d]) (by omega) hne2 l2] at hl2
        obtain ⟨hmem, _⟩ := (mem_restsFor fns d l2).mp hl2
        exact hcons ▸ hmem
      · rw [List.mem_map] at hl
        obtain ⟨x, hx, hsing⟩ := hl
        rw [mem_sortStrings, mem_singletonsOf] at hx
        exact hsing ▸ hx
    · intro hl
      cases l with
      | nil => exact absurd hl hne
      | cons x rest =>
        cases rest with
        | nil =>
          right
          rw [List.mem_map]
          exact ⟨x, (mem_sortStrings _ x).mpr ((mem_singletonsOf fns x).mpr hl),
            rfl⟩
        | cons y t =>
          left
          have hd2 : x ∈ headsWithRest fns :=
            (mem_headsWithRest fns x).mpr ⟨y :: t, by simp, hl⟩
          have hlt := maxLen_restsFor_lt fns x hd2
          have hne2 : ([] : List String) ∉ restsFor fns x := by
            intro hc
            exact ((mem_restsFor fns x []).mp hc).2 rfl
          refine ⟨x, (mem_sortedDedup _ x).mpr hd2, ?_⟩
          rw [List.mem_map]
          refine ⟨y :: t, ?_, rfl⟩
          rw [ih (restsFor fns x) (path ++ [x]) (by omega) hne2 (y :: t)]
          exact (mem_restsFor fns x (y :: t)).mpr ⟨hl, by simp⟩

theorem takeWhile_groups_leaves (a b : List SiteEntry)
    (ha : ∀ x ∈ a, entryIsGroup x = true) (hb : ∀ x ∈ b, entryIsGroup x = false) :
    (a ++ b).takeWhile entryIsGroup = a ∧ (a ++ b).dropWhile entryIsGroup = b := by
  induction a with
  | nil =>
    cases b with
    | nil => exact ⟨rfl, rfl⟩
    | cons e es =>
      have he := hb e (List.mem_cons_self e es)
      exact ⟨by simp [List.takeWhile_cons, he], by simp [List.dropWhile_cons, he]⟩
  | cons e es ih =>
    have he := ha e (List.mem_cons_self e es)
    obtain ⟨ih1, ih2⟩ := ih (fun x hx => ha x (List.mem_cons_of_mem e hx))
    exact ⟨by simp [List.takeWhile_cons, he, ih1],
      by simp [List.dropWhile_cons, he, ih2]⟩

theorem sorted_sortStrings (l : List String) :
    List.Sorted (fun a b : String => a ≤ b) (sortStrings l) :=
  List.sorted_insertionSort _ l

theorem sorted_sortedDedup (l : List String) :
    List.Sorted (fun a b : String => a ≤ b) (sortedDedup l) :=
  List.sorted_insertionSort _ l.dedup

theorem treeWF_mk (n : Nat) :
    ∀ (fns : List (List String)) (path : List String), maxLen fns ≤ n →
    TreeWF path.isEmpty (mk_site_tree_core fns path) := by
  induction n with
  | zero =>
    intro fns path h0
    have hh : headsWithRest fns = [] := by
      rw [List.eq_nil_iff_forall_not_mem]
      intro d hd
      obtain ⟨r, hr, hmem⟩ := (mem_headsWithRest fns d).mp hd
      have := le_maxLen fns (d :: r) hmem
      cases r with
      | nil => exact hr rfl
      | cons y t =>
        simp only [List.length_cons] at this
        omega
    have hs : singletonsOf fns = [] := by
      rw [List.eq_nil_iff_forall_not_mem]
      intro x hx
      have := le_maxLen fns [x] ((mem_singletonsOf fns x).mp hx)
      simp only [List.length_cons] at this
      omega
    rw [mk_site_tree_core_eq, hh, hs]
    refine TreeWF.intro _ _ ?_ ?_ ?_ ?_ ?_ <;>
      simp [sortedDedup, sortStrings, List.insertionSort]
  | succ n ih =>
    intro fns path h
    rw [mk_site_tree_core_eq]
    have hga : ∀ x ∈ (sortedDedup (headsWithRest fns)).map (fun d =>
        SiteEntry.group (if path = [] then "project" else "dir") d
          (pathStr path d) (mk_site_tree_core (restsFor fns d) (path ++ [d]))),
        entryIsGroup x = true := by
      intro x hx
      rw [List.mem_map] at hx
      obtain ⟨d, _, hd⟩ := hx
      rw [← hd]
      rfl
    have hlb : ∀ x ∈ (sortStrings (singletonsOf fns)).map (fun x =>
        SiteEntry.leaf x (pathStr path x ++ ".html")), entryIsGroup x = false := by
      intro x hx
      rw [List.mem_map] at hx
      obtain ⟨y, _, hy⟩ := hx
      rw [← hy]
      rfl
    obtain ⟨htake, hdrop⟩ := takeWhile_groups_leaves _ _ hga hlb
    refine TreeWF.intro _ _ ?_ ?_ ?_ ?_ ?_
    · rw [hdrop]
      exact hlb
    · rw [htake, List.map_map]
      have : (entryName ∘ fun d => SiteEntry.group
          (if path = [] then "project" else "dir") d (pathStr path d)
          (mk_site_tree_core (restsFor fns d) (path ++ [d]))) = id := by
        funext d
        rfl
      rw [this, List.map_id]
      exact sorted_sortedDedup _
    · rw [hdrop, List.map_map]
      have : (entryName ∘ fun x => SiteEntry.leaf x (pathStr path x ++ ".html"))
          = id := by
        funext x
        rfl
      rw [this, List.map_id]
      exact sorted_sortStrings _
    · intro e he
      rw [htake, List.mem_map] at he
      obtain ⟨d, _, hd⟩ := he
      rw [← hd]
      show (if path = [] then "project" else "dir")
        = if path.isEmpty = true then "project" else "dir"
      cases path <;> simp
    · intro k nm p cs hmem
      rw [List.mem_append] at hmem
      rcases hmem with hmem | hmem
      · rw [List.mem_map] at hmem
        obtain ⟨d, hd, hgrp⟩ := hmem
        have hd2 : d ∈ headsWithRest fns := (mem_sortedDedup _ d).mp hd
        have hlt := maxLen_restsFor_lt fns d hd2
        have hcs : cs = mk_site_tree_core (restsFor fns d) (path ++ [d]) := by
          cases hgrp
          rfl
        have := ih (restsFor fns d) (path ++ [d]) (by omega)
        rw [hcs]
        have hemp : (path ++ [d]).isEmpty = false := by
          cases path <;> rfl
        rw [hemp] at this
        exact this
      · rw [List.mem_map] at hmem
        obtain ⟨x, _, hx⟩ := hmem
        exact SiteEntry.noConfusion hx

/-- Claim C7: flattening the site tree built from a module set reproduces
exactly that module set (each module read as `project :: parts`), and the
tree is well-formed at every level: directory entries first, sorted
lexicographically by name, then leaf entries sorted by name, with the
project kind tag exactly at the root level. -/
theorem C7_site_tree_roundtrip_sorted (mods : List ImportName) :
    (∀ l, l ∈ flattenEntries (mk_site_tree mods) ↔
      l ∈ mods.map (fun m => m.project :: m.parts)) ∧
    TreeWF true (mk_site_tree mods) := by
  have hne : ([] : List String) ∉ mods.map (fun m => m.project :: m.parts) := by
    intro hc
    rw [List.mem_map] at hc
    obtain ⟨m, _, hm⟩ := hc
    exact List.noConfusion hm
  constructor
  · intro l
    exact mem_flatten_mk (maxLen (mods.map (fun m => m.project :: m.parts)))
      (mods.map (fun m => m.project :: m.parts)) [] (Nat.le_refl _) hne l
  · exact treeWF_mk (maxLen (mods.map (fun m => m.project :: m.parts)))
      (mods.map (fun m => m.project :: m.parts)) [] (Nat.le_refl _)

-- ------------------------------------------------------------------
-- linkify_efmt  (src/print_docs.py lines 232-251)
--
-- The regex  (.+?)(\s*)(.*?)(\s*) | ([^]+)
-- of linkify_linked is embedded as an explicit backtracking scanner:
-- lazy groups try shortest first, greedy whitespace groups longest first,
-- and re.findall advances one position on failure.  Python's \s is
-- modelled by Char.isWhitespace and `.` excludes '\n' (the scanned string
-- contains no newline: `go` collapses them to spaces first).
-- ------------------------------------------------------------------

/-- Reserved delimiter opening a link marker (``). -/
def startCh : Char := ''

/-- Reserved delimiter between name and display text (``). -/
def midCh : Char := ''

/-- Reserved delimiter closing a link marker (``). -/
def endCh : Char := ''

/-- Try the literal `` after exactly `m` characters. -/
def hitEnd (cs : List Char) (m : Nat) : Option (List Char × List Char) :=
  match cs.drop m with
  | c :: r => if c = endCh then some (cs.take m, r) else none
  | [] => none

/-- Greedy `(\s*)`: longest whitespace run first (indices `m` down to
0), backtracking one character at a time. -/
def ws2Search (cs : List Char) : Nat → Option (List Char × List Char)
  | 0 => hitEnd cs 0
  | m + 1 =>
    match hitEnd cs (m + 1) with
    | some pr => some pr
    | none => ws2Search cs m

/-- Match `(\s*)` at the front of `cs`, returning (group, rest). -/
def matchWsEnd (cs : List Char) : Option (List Char × List Char) :=
  ws2Search cs (cs.takeWhile Char.isWhitespace).length

/-- Lazy `(.*?)(\s*)`: shortest display text first; `acc` holds the
reversed display text consumed so far. -/
def dispSearch : List Char → List Char → Option (List Char × List Char × List Char)
  | [], acc =>
    match matchWsEnd [] with
    | some (w2, rest) => some (acc.reverse, w2, rest)
    | none => none
  | c :: cs2, acc =>
    match matchWsEnd (c :: cs2) with
    | some (w2, rest) => some (acc.reverse, w2, rest)
    | none => if c = '\n' then none else dispSearch cs2 (c :: acc)

/-- Greedy `(\s*)` before the display text: try taking `m` whitespace
characters, backtracking downwards. -/
def ws1Search (cs : List Char) :
    Nat → Option (List Char × List Char × List Char × List Char)
  | 0 =>
    match dispSearch cs [] with
    | some (dsp, w2, rest) => some ([], dsp, w2, rest)
    | none => none
  | m + 1 =>
    match dispSearch (cs.drop (m + 1)) [] with
    | some (dsp, w2, rest) => some (cs.take (m + 1), dsp, w2, rest)
    | none => ws1Search cs m

/-- Match `(\s*)(.*?)(\s*)` at the front of `cs`. -/
def matchAfterMid (cs : List Char) :
    Option (List Char × List Char × List Char × List Char) :=
  ws1Search cs (cs.takeWhile Char.isWhitespace).length

/-- Lazy `(.+?)` followed by the rest of the marker: extend the name
one character at a time, trying the continuation at each ``. -/
def nameSearch :
    List Char → List Char →
    Option (List Char × List Char × List Char × List Char × List Char)
  | [], _ => none
  | c :: cs2, acc =>
    if c = '\n' then none
    else
      match cs2 with
      | d2 :: cs3 =>
        if d2 = midCh then
          match matchAfterMid cs3 with
          | some (w1, dsp, w2, rest) => some ((c :: acc).reverse, w1, dsp, w2, rest)
          | none => nameSearch cs2 (c :: acc)
        else nameSearch cs2 (c :: acc)
      | [] => none

/-- Match the whole marker alternative at the front of `cs`. -/
def matchMarker (cs : List Char) :
    Option (List Char × List Char × List Char × List Char × List Char) :=
  match cs with
  | c :: cs2 => if c = startCh then nameSearch cs2 [] else none
  | [] => none

/-- One `re.findall` match: an unmarked text run, or a marker's groups. -/
inductive Piece where
  | text (t : List Char)
  | marker (nm w1 dsp w2 : List Char)

/-- The `re.findall` scan: a marker match, else a maximal `[^]+` run,
else (a stray `` with no complete marker) advance one position. -/
def scanAux : Nat → List Char → List Piece
  | 0, _ => []
  | f + 1, s =>
    match matchMarker s with
    | some (nm, w1, dsp, w2, rest) => Piece.marker nm w1 dsp w2 :: scanAux f rest
    | none =>
      match s with
      | [] => []
      | c :: rest =>
        let t := (c :: rest).takeWhile (fun x => x ≠ startCh)
        if t.isEmpty then scanAux f rest
        else Piece.text t :: scanAux f ((c :: rest).drop t.length)

/-- Contribution of one match to the joined result: group 5 for a text run;
groups 2 + linkified(1, 3) + 4 for a marker (no defaulting of the display
text). -/
def renderPiece (root : String) (lm : String → Option ImportName) :
    Piece → String
  | Piece.text t => String.mk t
  | Piece.marker nm w1 dsp w2 =>
    String.mk w1 ++ linkify_core root lm (String.mk nm) (String.mk dsp)
      ++ String.mk w2

/-- Python `''.join(...)` over the findall matches. -/
def joinPieces (root : String) (lm : String → Option ImportName) :
    List Piece → String
  | [] => ""
  | p :: ps => renderPiece root lm p ++ joinPieces root lm ps

/-- Local function `linkify_linked(string, loc_map)` of `linkify_efmt`. -/
def linkify_linked (root : String) (lm : String → Option ImportName)
    (s : String) : String :=
  joinPieces root lm (scanAux (s.toList.length + 1) s.toList)

/-- The newline collapse `f.replace('\n', ' ')` of `go`. -/
def collapseNL (l : List Char) : List Char :=
  l.map (fun c => if c = '\n' then ' ' else c)

/-- The three shapes of a structured pretty-printed expression: a plain text
run, the `['n', e]` named wrapper, and `['c', a, b]` concatenation.  Any
other shape raises `unknown efmt object` in the source; the inductive covers
exactly the legal shapes. -/
inductive Efmt where
  | text (s : String)
  | n (e : Efmt)
  | c (a b : Efmt)

/-- Local function `go` of `linkify_efmt`. -/
def goEfmt (root : String) (lm : String → Option ImportName) : Efmt → String
  | Efmt.text s => linkify_linked root lm (String.mk (collapseNL s.toList))
  | Efmt.n e => "<span class=\"fn\">" ++ goEfmt root lm e ++ "</span>"
  | Efmt.c a b => goEfmt root lm a ++ goEfmt root lm b

/-- Function `linkify_efmt(f, loc_map)`: wraps the whole expression in the
named wrapper and renders it. -/
def linkify_efmt (root : String) (lm : String → Option ImportName)
    (f : Efmt) : String :=
  goEfmt root lm (Efmt.n f)

theorem hitEnd_length (cs : List Char) (m : Nat)
    (pr : List Char × List Char) (h : hitEnd cs m = some pr) :
    pr.2.length < cs.length := by
  rw [hitEnd] at h
  cases hd : cs.drop m with
  | nil =>
    rw [hd] at h
    exact Option.noConfusion h
  | cons c r =>
    rw [hd] at h
    have h2 : (if c = endCh then some (cs.take m, r) else none) = some pr := h
    by_cases hc : c = endCh
    · rw [if_pos hc, Option.some.injEq] at h2
      have hlen : (cs.drop m).length = r.length + 1 := by
        rw [hd]
        rfl
      rw [List.length_drop] at hlen
      have h3 : pr.2 = r := by rw [← h2]
      rw [h3]
      omega
    · rw [if_neg hc] at h2
      exact Option.noConfusion h2

theorem ws2Search_length (cs : List Char) (m : Nat)
    (pr : List Char × List Char) (h : ws2Search cs m = some pr) :
    pr.2.length < cs.length := by
  induction m with
  | zero => exact hitEnd_length cs 0 pr h
  | succ m ih =>
    rw [ws2Search] at h
    cases hh : hitEnd cs (m + 1) with
    | some pr2 =>
      rw [hh, Option.some.injEq] at h
      exact h ▸ hitEnd_length cs (m + 1) pr2 hh
    | none =>
      rw [hh] at h
      exact ih h

theorem matchWsEnd_length (cs : List Char) (pr : List Char × List Char)
    (h : matchWsEnd cs = some pr) : pr.2.length < cs.length :=
  ws2Search_length cs _ pr h

theorem dispSearch_length (cs : List Char) :
    ∀ (acc : List Char) (pr : List Char × List Char × List Char),
    dispSearch cs acc = some pr → pr.2.2.length < cs.length := by
  induction cs with
  | nil =>
    intro acc pr h
    rw [dispSearch] at h
    cases hm : matchWsEnd ([] : List Char) with
    | some pr2 =>
      rw [hm, Option.some.injEq] at h
      have := matchWsEnd_length [] pr2 hm
      simp at this
    | none =>
      rw [hm] at h
      exact Option.noConfusion h
  | cons c cs2 ih =>
    intro acc pr h
    rw [dispSearch] at h
    cases hm : matchWsEnd (c :: cs2) with
    | some pr2 =>
      rw [hm, Option.some.injEq] at h
      have := matchWsEnd_length (c :: cs2) pr2 hm
      rw [← h]
      exact this
    | none =>
      rw [hm] at h
      by_cases hc : c = '\n'
      · rw [if_pos hc] at h
        exact Option.noConfusion h
      · rw [if_neg hc] at h
        have := ih (c :: acc) pr h
        exact Nat.lt_trans this (Nat.lt_succ_self _)

theorem ws1Search_length (cs : List Char) (m : Nat)
    (pr : List Char × List Char × List Char × List Char)
    (h : ws1Search cs m = some pr) : pr.2.2.2.length < cs.length := by
  induction m with
  | zero =>
    rw [ws1Search] at h
    cases hd : dispSearch cs [] with
    | some pr2 =>
      rw [hd, Option.some.injEq] at h
      have := dispSearch_length cs [] pr2 hd
      rw [← h]
      exact this
    | none =>
      rw [hd] at h
      exact Option.noConfusion h
  | succ m ih =>
    rw [ws1Search] at h
    cases hd : dispSearch (cs.drop (m + 1)) [] with
    | some pr2 =>
      rw [hd, Option.some.injEq] at h
      have h1 := dispSearch_length (cs.drop (m + 1)) [] pr2 hd
      rw [List.length_drop] at h1
      rw [← h]
      show pr2.2.2.length < cs.length
      omega
    | none =>
      rw [hd] at h
      exact ih h

theorem matchAfterMid_length (cs : List Char)
    (pr : List Char × List Char × List Char × List Char)
    (h : matchAfterMid cs = some pr) : pr.2.2.2.length < cs.length :=
  ws1Search_length cs _ pr h

theorem nameSearch_length (cs : List Char) :
    ∀ (acc : List Char)
    (pr : List Char × List Char × List Char × List Char × List Char),
    nameSearch cs acc = some pr → pr.2.2.2.2.length < cs.length := by
  induction cs with
  | nil =>
    intro acc pr h
    exact Option.noConfusion h
  | cons c cs2 ih =>
    intro acc pr h
    cases cs2 with
    | nil =>
      have h2 : (if c = '\n' then none else
          (none : Option (List Char × List Char × List Char × List Char × List Char)))
          = some pr := h
      by_cases hc : c = '\n'
      · rw [if_pos hc] at h2
        exact Option.noConfusion h2
      · rw [if_neg hc] at h2
        exact Option.noConfusion h2
    | cons d2 cs3 =>
      have h2 : (if c = '\n' then none
          else
            if d2 = midCh then
              match matchAfterMid cs3 with
              | some (w1, dsp, w2, rest) =>
                some ((c :: acc).reverse, w1, dsp, w2, rest)
              | none => nameSearch (d2 :: cs3) (c :: acc)
            else nameSearch (d2 :: cs3) (c :: acc)) = some pr := h
      by_cases hc : c = '\n'
      · rw [if_pos hc] at h2
        exact Option.noConfusion h2
      · rw [if_neg hc] at h2
        by_cases hd : d2 = midCh
        · rw [if_pos hd] at h2
          cases hma : matchAfterMid cs3 with
          | some pr2 =>
            obtain ⟨w1, dsp, w2, rest⟩ := pr2
            rw [hma] at h2
            have h3 : (some ((c :: acc).reverse, w1, dsp, w2, rest) :
                Option (List Char × List Char × List Char × List Char × List Char))
                = some pr := h2
            rw [Option.some.injEq] at h3
            have h1 := matchAfterMid_length cs3 (w1, dsp, w2, rest) hma
            rw [← h3]
            simp only [List.length_cons] at h1 ⊢
            omega
          | none =>
            rw [hma] at h2
            have h3 : nameSearch (d2 :: cs3) (c :: acc) = some pr := h2
            have := ih (c :: acc) pr h3
            exact Nat.lt_trans this (Nat.lt_succ_self _)
        · rw [if_neg hd] at h2
          have := ih (c :: acc) pr h2
          exact Nat.lt_trans this (Nat.lt_succ_self _)

theorem matchMarker_length (s : List Char)
    (pr : List Char × List Char × List Char × List Char × List Char)
    (h : matchMarker s = some pr) : pr.2.2.2.2.length < s.length := by
  cases s with
  | nil => exact Option.noConfusion h
  | cons c cs2 =>
    rw [matchMarker] at h
    by_cases hc : c = startCh
    · rw [if_pos hc] at h
      have := nameSearch_length cs2 [] pr h
      exact Nat.lt_trans this (Nat.lt_succ_self _)
    · rw [if_neg hc] at h
      exact Option.noConfusion h

theorem scanAux_succ (f : Nat) (s : List Char) :
    scanAux (f + 1) s =
      match matchMarker s with
      | some (nm, w1, dsp, w2, rest) => Piece.marker nm w1 dsp w2 :: scanAux f rest
      | none =>
        match s with
        | [] => []
        | c :: rest =>
          if ((c :: rest).takeWhile (fun x => x ≠ startCh)).isEmpty
          then scanAux f rest
          else Piece.text ((c :: rest).takeWhile (fun x => x ≠ startCh))
            :: scanAux f ((c :: rest).drop
              ((c :: rest).takeWhile (fun x => x ≠ startCh)).length) := rfl

theorem scanAux_congr (f : Nat) :
    ∀ (g : Nat) (s : List Char), s.length < f → s.length < g →
    scanAux f s = scanAux g s := by
  induction f with
  | zero =>
    intro g s hf
    exact absurd hf (Nat.not_lt_zero _)
  | succ f ih =>
    intro g s hf hg
    cases g with
    | zero => exact absurd hg (Nat.not_lt_zero _)
    | succ g =>
      cases hmm : matchMarker s with
      | some pr =>
        obtain ⟨nm, w1, dsp, w2, rest⟩ := pr
        have hlen : rest.length < s.length := by
          simpa using matchMarker_length s (nm, w1, dsp, w2, rest) hmm
        have e1 : scanAux (f + 1) s = Piece.marker nm w1 dsp w2 :: scanAux f rest := by
          rw [scanAux_succ, hmm]
        have e2 : scanAux (g + 1) s = Piece.marker nm w1 dsp w2 :: scanAux g rest := by
          rw [scanAux_succ, hmm]
        rw [e1, e2, ih g rest (by omega) (by omega)]
      | none =>
        cases s with
        | nil => rfl
        | cons c rest =>
          have e1 : scanAux (f + 1) (c :: rest) =
              (if ((c :: rest).takeWhile (fun x => x ≠ startCh)).isEmpty
               then scanAux f rest
               else Piece.text ((c :: rest).takeWhile (fun x => x ≠ startCh))
                 :: scanAux f ((c :: rest).drop
                   ((c :: rest).takeWhile (fun x => x ≠ startCh)).length)) := by
            rw [scanAux_succ, hmm]
          have e2 : scanAux (g + 1) (c :: rest) =
              (if ((c :: rest).takeWhile (fun x => x ≠ startCh)).isEmpty
               then scanAux g rest
               else Piece.text ((c :: rest).takeWhile (fun x => x ≠ startCh))
                 :: scanAux g ((c :: rest).drop
                   ((c :: rest).takeWhile (fun x => x ≠ startCh)).length)) := by
            rw [scanAux_succ, hmm]
          rw [e1, e2]
          simp only [List.length_cons] at hf hg
          by_cases ht : ((c :: rest).takeWhile (fun x => x ≠ startCh)).isEmpty
          · rw [if_pos ht, if_pos ht]
            exact ih g rest (by omega) (by omega)
          · rw [if_neg ht, if_neg ht]
            have htl : 0 < ((c :: rest).takeWhile (fun x => x ≠ startCh)).length := by
              cases hq : (c :: rest).takeWhile (fun x => x ≠ startCh) with
              | nil => rw [hq] at ht; exact absurd rfl ht
              | cons y ys => simp
            have hdl : ((c :: rest).drop
                ((c :: rest).takeWhile (fun x => x ≠ startCh)).length).length
                < (c :: rest).length := by
              rw [List.length_drop]
              simp only [List.length_cons]
              omega
            simp only [List.length_cons] at hdl
            rw [ih g _ (by omega) (by omega)]

theorem takeWhile_append_head {α : Type} (p : α → Bool) (a : List α) (c : α)
    (b : List α) (ha : ∀ x ∈ a, p x = true) (hc : p c = false) :
    (a ++ c :: b).takeWhile p = a := by
  induction a with
  | nil => simp [List.takeWhile_cons, hc]
  | cons x xs ih =>
    have hx := ha x (List.mem_cons_self x xs)
    simp [List.takeWhile_cons, hx,
      ih (fun y hy => ha y (List.mem_cons_of_mem x hy))]

theorem ws2Search_hit (cs : List Char) (m : Nat) (pr : List Char × List Char)
    (h : hitEnd cs m = some pr) : ws2Search cs m = some pr := by
  cases m with
  | zero =>
    rw [ws2Search]
    exact h
  | succ m =>
    rw [ws2Search, h]

theorem matchWsEnd_exact (w2 post : List Char)
    (hw2 : ∀ c ∈ w2, Char.isWhitespace c = true) :
    matchWsEnd (w2 ++ endCh :: post) = some (w2, post) := by
  have htw : (w2 ++ endCh :: post).takeWhile Char.isWhitespace = w2 :=
    takeWhile_append_head _ _ _ _ hw2 (by decide)
  rw [matchWsEnd, htw]
  apply ws2Search_hit
  rw [hitEnd, List.drop_left]
  show (if endCh = endCh
    then some ((w2 ++ endCh :: post).take w2.length, post) else none) = some (w2, post)
  rw [if_pos rfl, List.take_left]

theorem ws2Search_none_of (cs : List Char) :
    ∀ m, (∀ j, j ≤ m → ∀ c r, cs.drop j = c :: r → c ≠ endCh) →
    ws2Search cs m = none := by
  intro m
  induction m with
  | zero =>
    intro h
    rw [ws2Search, hitEnd]
    cases hd : cs.drop 0 with
    | nil => rfl
    | cons c r =>
      show (if c = endCh then some (cs.take 0, r) else none) = none
      exact if_neg (h 0 (Nat.le_refl 0) c r hd)
  | succ m ih =>
    intro h
    have hh : hitEnd cs (m + 1) = none := by
      rw [hitEnd]
      cases hd : cs.drop (m + 1) with
      | nil => rfl
      | cons c r =>
        show (if c = endCh then some (cs.take (m + 1), r) else none) = none
        exact if_neg (h (m + 1) (Nat.le_refl _) c r hd)
    rw [ws2Search, hh]
    exact ih (fun j hj => h j (Nat.le_succ_of_le hj))

theorem matchWsEnd_none_of (u T : List Char) (hu : u ≠ [])
    (hlast : Char.isWhitespace (u.getLast hu) = false)
    (hnoend : ∀ c ∈ u, c ≠ endCh) :
    matchWsEnd (u ++ T) = none := by
  rw [matchWsEnd]
  have hlt : ((u ++ T).takeWhile Char.isWhitespace).length < u.length := by
    rw [List.takeWhile_append]
    by_cases hfull : (u.takeWhile Char.isWhitespace).length = u.length
    · exfalso
      have heq : u.takeWhile Char.isWhitespace = u :=
        (List.takeWhile_prefix _).eq_of_length hfull
      have hall : ∀ x ∈ u, Char.isWhitespace x = true :=
        List.takeWhile_eq_self_iff.mp heq
      rw [hall (u.getLast hu) (List.getLast_mem hu)] at hlast
      exact Bool.noConfusion hlast
    · rw [if_neg hfull]
      have hple := (List.takeWhile_prefix (l := u) (p := Char.isWhitespace)).length_le
      omega
  apply ws2Search_none_of
  intro j hj c r hdrop
  have hjlt : j < u.length := Nat.lt_of_le_of_lt hj hlt
  rw [List.drop_append_of_le_length (Nat.le_of_lt hjlt)] at hdrop
  cases hud : u.drop j with
  | nil =>
    exfalso
    have hl2 : (u.drop j).length = 0 := by
      rw [hud]
      rfl
    rw [List.length_drop] at hl2
    omega
  | cons d rest2 =>
    rw [hud, List.cons_append] at hdrop
    have hcd : c = d := by
      injection hdrop with h1 h2
      exact h1.symm
    have hdmem : d ∈ u := (List.drop_suffix j u).subset
      (by rw [hud]; exact List.mem_cons_self d rest2)
    rw [hcd]
    exact hnoend d hdmem

theorem dispSearch_exact (dsp w2 post : List Char)
    (hdsp : ∀ c ∈ dsp, c ≠ endCh ∧ c ≠ '\n')
    (hlast : ∀ (h : dsp ≠ []), Char.isWhitespace (dsp.getLast h) = false)
    (hw2 : ∀ c ∈ w2, Char.isWhitespace c = true) :
    ∀ acc, dispSearch (dsp ++ (w2 ++ endCh :: post)) acc
      = some (acc.reverse ++ dsp, w2, post) := by
  induction dsp with
  | nil =>
    intro acc
    have hmw := matchWsEnd_exact w2 post hw2
    cases hl : w2 ++ endCh :: post with
    | nil => cases w2 <;> simp at hl
    | cons c cs2 =>
      rw [hl] at hmw
      rw [List.nil_append, dispSearch, hmw]
      simp
  | cons d dsp2 ih =>
    intro acc
    have hd := hdsp d (List.mem_cons_self d dsp2)
    have hnone : matchWsEnd ((d :: dsp2) ++ (w2 ++ endCh :: post)) = none := by
      apply matchWsEnd_none_of (d :: dsp2) _ (by simp)
      · exact hlast (by simp)
      · intro c hc
        exact (hdsp c hc).1
    rw [List.cons_append] at hnone
    rw [List.cons_append, dispSearch, hnone]
    show (if d = '\n' then none
      else dispSearch (dsp2 ++ (w2 ++ endCh :: post)) (d :: acc))
        = some (acc.reverse ++ (d :: dsp2), w2, post)
    rw [if_neg hd.2]
    have hlast2 : ∀ (h2 : dsp2 ≠ []), Char.isWhitespace (dsp2.getLast h2) = false := by
      intro h2
      have := hlast (by simp)
      rw [List.getLast_cons h2] at this
      exact this
    rw [ih (fun c hc => hdsp c (List.mem_cons_of_mem d hc)) hlast2 (d :: acc)]
    simp [List.append_assoc]

theorem ws1Search_hit (cs : List Char) (m : Nat) (dsp w2 rest : List Char)
    (h : dispSearch (cs.drop m) [] = some (dsp, w2, rest)) :
    ws1Search cs m = some (cs.take m, dsp, w2, rest) := by
  cases m with
  | zero =>
    rw [List.drop_zero] at h
    rw [ws1Search, h]
    rfl
  | succ m =>
    rw [ws1Search, h]

theorem matchAfterMid_exact (w1 dsp w2 post : List Char)
    (hw1 : ∀ c ∈ w1, Char.isWhitespace c = true)
    (hdsp : ∀ c ∈ dsp, c ≠ endCh ∧ c ≠ '\n')
    (hfirst : ∀ c, dsp.head? = some c → Char.isWhitespace c = false)
    (hlast : ∀ (h : dsp ≠ []), Char.isWhitespace (dsp.getLast h) = false)
    (hw2 : ∀ c ∈ w2, Char.isWhitespace c = true)
    (hempty : dsp = [] → w2 = []) :
    matchAfterMid (w1 ++ (dsp ++ (w2 ++ endCh :: post)))
      = some (w1, dsp, w2, post) := by
  rw [matchAfterMid]
  cases dsp with
  | nil =>
    have hw2nil := hempty rfl
    subst hw2nil
    have htw : ((w1 ++ ([] ++ ([] ++ endCh :: post))).takeWhile Char.isWhitespace)
        = w1 := by
      simp only [List.nil_append]
      exact takeWhile_append_head _ _ _ _ hw1 (by decide)
    rw [htw]
    have hdisp : dispSearch ((w1 ++ ([] ++ ([] ++ endCh :: post))).drop w1.length) []
        = some ([], [], post) := by
      simp only [List.nil_append]
      rw [List.drop_left, dispSearch]
      have : matchWsEnd (endCh :: post) = some ([], post) := by
        have := matchWsEnd_exact [] post (by intro c hc; cases hc)
        rw [List.nil_append] at this
        exact this
      rw [this]
      rfl
    have hws := ws1Search_hit _ w1.length _ _ _ hdisp
    simp only [List.nil_append] at hws ⊢
    rw [List.take_left] at hws
    exact hws
  | cons d dsp2 =>
    have hd1 : Char.isWhitespace d = false := hfirst d rfl
    have htw : ((w1 ++ ((d :: dsp2) ++ (w2 ++ endCh :: post))).takeWhile
        Char.isWhitespace) = w1 := by
      rw [List.cons_append]
      exact takeWhile_append_head _ _ _ _ hw1 hd1
    rw [htw]
    have hdisp : dispSearch
        ((w1 ++ ((d :: dsp2) ++ (w2 ++ endCh :: post))).drop w1.length) []
        = some (d :: dsp2, w2, post) := by
      rw [List.drop_left]
      have := dispSearch_exact (d :: dsp2) w2 post hdsp hlast hw2 []
      simpa using this
    have hws := ws1Search_hit _ w1.length _ _ _ hdisp
    rw [List.take_left] at hws
    exact hws

theorem nameSearch_exact (tail : List Char) (w1 dsp w2 post : List Char)
    (hcont : matchAfterMid tail = some (w1, dsp, w2, post)) :
    ∀ nm : List Char, nm ≠ [] → (∀ c ∈ nm, c ≠ '\n' ∧ c ≠ midCh) →
    ∀ acc, nameSearch (nm ++ midCh :: tail) acc
      = some (acc.reverse ++ nm, w1, dsp, w2, post) := by
  intro nm
  induction nm with
  | nil => intro hnm; exact absurd rfl hnm
  | cons c nm2 ih =>
    intro _ hname acc
    have hc := hname c (List.mem_cons_self c nm2)
    cases nm2 with
    | nil =>
      show nameSearch (c :: midCh :: tail) acc = _
      show (if c = '\n' then none
        else if midCh = midCh then
          match matchAfterMid tail with
          | some (w1, dsp, w2, rest) => some ((c :: acc).reverse, w1, dsp, w2, rest)
          | none => nameSearch (midCh :: tail) (c :: acc)
        else nameSearch (midCh :: tail) (c :: acc)) = _
      rw [if_neg hc.1, if_pos rfl, hcont]
      simp
    | cons c2 nm3 =>
      have hc2 := hname c2 (List.mem_cons_of_mem c (List.mem_cons_self c2 nm3))
      rw [List.cons_append, List.cons_append]
      show (if c = '\n' then none
        else if c2 = midCh then
          match matchAfterMid (nm3 ++ midCh :: tail) with
          | some (w1, dsp, w2, rest) => some ((c :: acc).reverse, w1, dsp, w2, rest)
          | none => nameSearch (c2 :: (nm3 ++ midCh :: tail)) (c :: acc)
        else nameSearch (c2 :: (nm3 ++ midCh :: tail)) (c :: acc)) = _
      rw [if_neg hc.1, if_neg hc2.2]
      have hih := ih (by simp) (fun x hx => hname x (List.mem_cons_of_mem c hx))
        (c :: acc)
      rw [List.cons_append] at hih
      rw [hih]
      simp [List.append_assoc]

theorem matchMarker_exact (tail nm : List Char) (w1 dsp w2 post : List Char)
    (hnm : nm ≠ []) (hname : ∀ c ∈ nm, c ≠ '\n' ∧ c ≠ midCh)
    (hcont : matchAfterMid tail = some (w1, dsp, w2, post)) :
    matchMarker (startCh :: (nm ++ midCh :: tail))
      = some (nm, w1, dsp, w2, post) := by
  rw [matchMarker, if_pos rfl,
    nameSearch_exact tail w1 dsp w2 post hcont nm hnm hname []]
  simp

theorem matchMarker_cons_ne (c : Char) (cs : List Char) (hc : c ≠ startCh) :
    matchMarker (c :: cs) = none := by
  rw [matchMarker, if_neg hc]

theorem collapseNL_append (a b : List Char) :
    collapseNL (a ++ b) = collapseNL a ++ collapseNL b :=
  List.map_append _ a b

theorem collapseNL_cons (c : Char) (l : List Char) :
    collapseNL (c :: l) = (if c = '\n' then ' ' else c) :: collapseNL l := rfl

theorem collapseNL_id (l : List Char) (h : ∀ c ∈ l, c ≠ '\n') :
    collapseNL l = l := by
  rw [collapseNL]
  have he : ∀ c ∈ l, (fun c => if c = '\n' then ' ' else c) c = id c := by
    intro c hc
    simp [h c hc]
  rw [List.map_congr_left he, List.map_id]

theorem scan_marker (pre nm w1 dsp w2 post : List Char)
    (hpre : ∀ c ∈ pre, c ≠ startCh)
    (hMM : matchMarker
        (startCh :: (nm ++ midCh :: (w1 ++ (dsp ++ (w2 ++ endCh :: post)))))
      = some (nm, w1, dsp, w2, post))
    (f : Nat)
    (hf : (pre ++ startCh ::
        (nm ++ midCh :: (w1 ++ (dsp ++ (w2 ++ endCh :: post))))).length < f) :
    scanAux f (pre ++ startCh ::
        (nm ++ midCh :: (w1 ++ (dsp ++ (w2 ++ endCh :: post)))))
      = (if pre = [] then [] else [Piece.text pre])
        ++ Piece.marker nm w1 dsp w2 :: scanAux (post.length + 1) post := by
  have hlenR : (startCh ::
      (nm ++ midCh :: (w1 ++ (dsp ++ (w2 ++ endCh :: post))))).length
      = nm.length + w1.length + dsp.length + w2.length + post.length + 3 := by
    simp only [List.length_cons, List.length_append]
    omega
  have hmark : ∀ g, post.length < g →
      scanAux (g + 1) (startCh ::
        (nm ++ midCh :: (w1 ++ (dsp ++ (w2 ++ endCh :: post)))))
      = Piece.marker nm w1 dsp w2 :: scanAux (post.length + 1) post := by
    intro g hg
    rw [scanAux_succ, hMM]
    show Piece.marker nm w1 dsp w2 :: scanAux g post
      = Piece.marker nm w1 dsp w2 :: scanAux (post.length + 1) post
    rw [scanAux_congr g (post.length + 1) post hg (Nat.lt_succ_self _)]
  cases f with
  | zero => exact absurd hf (Nat.not_lt_zero _)
  | succ f =>
    cases pre with
    | nil =>
      rw [if_pos rfl, List.nil_append, List.nil_append]
      apply hmark f
      have hf2 : (startCh :: (nm ++ midCh ::
          (w1 ++ (dsp ++ (w2 ++ endCh :: post))))).length < f + 1 := by
        simpa using hf
      rw [hlenR] at hf2
      omega
    | cons p0 pre2 =>
      rw [if_neg (by simp)]
      have hp0 : p0 ≠ startCh := hpre p0 (List.mem_cons_self p0 pre2)
      have hMMnone : matchMarker (p0 :: (pre2 ++ startCh ::
          (nm ++ midCh :: (w1 ++ (dsp ++ (w2 ++ endCh :: post)))))) = none :=
        matchMarker_cons_ne p0 _ hp0
      have htw : (p0 :: (pre2 ++ startCh ::
          (nm ++ midCh :: (w1 ++ (dsp ++ (w2 ++ endCh :: post)))))).takeWhile
          (fun x => x ≠ startCh) = p0 :: pre2 := by
        have := takeWhile_append_head (fun x : Char => decide (x ≠ startCh))
          (p0 :: pre2) startCh
          (nm ++ midCh :: (w1 ++ (dsp ++ (w2 ++ endCh :: post))))
          (fun x hx => by simp [hpre x hx]) (by simp)
        rw [List.cons_append] at this
        exact this
      rw [List.cons_append, scanAux_succ, hMMnone]
      show (if ((p0 :: (pre2 ++ startCh ::
            (nm ++ midCh :: (w1 ++ (dsp ++ (w2 ++ endCh :: post)))))).takeWhile
            (fun x => x ≠ startCh)).isEmpty
        then scanAux f (pre2 ++ startCh ::
          (nm ++ midCh :: (w1 ++ (dsp ++ (w2 ++ endCh :: post)))))
        else Piece.text ((p0 :: (pre2 ++ startCh ::
            (nm ++ midCh :: (w1 ++ (dsp ++ (w2 ++ endCh :: post)))))).takeWhile
            (fun x => x ≠ startCh))
          :: scanAux f ((p0 :: (pre2 ++ startCh ::
            (nm ++ midCh :: (w1 ++ (dsp ++ (w2 ++ endCh :: post)))))).drop
            ((p0 :: (pre2 ++ startCh ::
              (nm ++ midCh :: (w1 ++ (dsp ++ (w2 ++ endCh :: post)))))).takeWhile
              (fun x => x ≠ startCh)).length)) = _
      rw [htw]
      rw [if_neg (by simp)]
      have hdrop : (p0 :: (pre2 ++ startCh ::
          (nm ++ midCh :: (w1 ++ (dsp ++ (w2 ++ endCh :: post)))))).drop
          (p0 :: pre2).length
          = startCh :: (nm ++ midCh :: (w1 ++ (dsp ++ (w2 ++ endCh :: post)))) := by
        rw [List.length_cons, List.drop_succ_cons, List.drop_left]
      rw [hdrop]
      have hlt : (startCh ::
          (nm ++ midCh :: (w1 ++ (dsp ++ (w2 ++ endCh :: post))))).length < f := by
        simp only [List.length_cons, List.length_append] at hf ⊢
        omega
      rw [scanAux_congr f ((startCh ::
          (nm ++ midCh :: (w1 ++ (dsp ++ (w2 ++ endCh :: post))))).length + 1) _
          hlt (Nat.lt_succ_self _)]
      rw [hmark ((startCh ::
          (nm ++ midCh :: (w1 ++ (dsp ++ (w2 ++ endCh :: post))))).length)
          (by rw [hlenR]; omega)]
      rfl

/-- A marker with an empty display text: the source passes the empty display
text straight to `linkify_core` (producing a tooltip-only span with empty
visible text here), and the surrounding captured whitespace is emitted
outside the substitution — it does not default the display text to the
name, refuting the claim's defaulting clause. -/
theorem C3_efmt_default_counterexample :
    linkify_efmt "/" (fun _ => none)
        (Efmt.text (String.mk [startCh, 'f', 'o', 'o', midCh, ' ', endCh])) =
      "<span class=\"fn\"> <span title=\"foo\"></span></span>" ∧
    linkify_efmt "/" (fun _ => none)
        (Efmt.text (String.mk [startCh, 'f', 'o', 'o', midCh, ' ', endCh])) ≠
      "<span class=\"fn\">" ++ linkify_core "/" (fun _ => none) "foo" "foo"
        ++ "</span>" := by
  constructor <;> decide

/-- Claim C3 (amended): in `linkify_efmt`, a plain-text run holding a
complete link-marker pattern is rewritten as follows: the marked span is
replaced by the whitespace captured right after the middle delimiter, then
the core resolution primitive applied to the captured name and the captured
whitespace-trimmed display text — passed exactly as captured, possibly
empty, with no defaulting to the name — then the whitespace captured right
before the end delimiter; text before the marker passes through unchanged
(newlines collapsed to spaces) and scanning continues after the marker. -/
theorem C3_linkify_efmt_marker (root : String) (lm : String → Option ImportName)
    (pre nm w1 dsp w2 post : List Char)
    (hpre : ∀ c ∈ pre, c ≠ startCh ∧ c ≠ '\n')
    (hnm : nm ≠ []) (hname : ∀ c ∈ nm, c ≠ '\n' ∧ c ≠ midCh)
    (hw1 : ∀ c ∈ w1, Char.isWhitespace c = true ∧ c ≠ '\n')
    (hdsp : ∀ c ∈ dsp, c ≠ endCh ∧ c ≠ '\n')
    (hfirst : ∀ c, dsp.head? = some c → Char.isWhitespace c = false)
    (hlast : ∀ (h : dsp ≠ []), Char.isWhitespace (dsp.getLast h) = false)
    (hw2 : ∀ c ∈ w2, Char.isWhitespace c = true ∧ c ≠ '\n')
    (hempty : dsp = [] → w2 = [])
    (hpost : ∀ c ∈ post, c ≠ '\n') :
    linkify_efmt root lm (Efmt.text (String.mk (pre ++ startCh ::
        (nm ++ midCh :: (w1 ++ (dsp ++ (w2 ++ endCh :: post)))))))
      = "<span class=\"fn\">"
        ++ (String.mk pre
          ++ (String.mk w1 ++ linkify_core root lm (String.mk nm) (String.mk dsp)
              ++ String.mk w2 ++ linkify_linked root lm (String.mk post)))
        ++ "</span>" := by
  have hcont : matchAfterMid (w1 ++ (dsp ++ (w2 ++ endCh :: post)))
      = some (w1, dsp, w2, post) :=
    matchAfterMid_exact w1 dsp w2 post (fun c hc => (hw1 c hc).1) hdsp hfirst
      hlast (fun c hc => (hw2 c hc).1) hempty
  have hMM : matchMarker (startCh ::
      (nm ++ midCh :: (w1 ++ (dsp ++ (w2 ++ endCh :: post)))))
      = some (nm, w1, dsp, w2, post) :=
    matchMarker_exact _ nm w1 dsp w2 post hnm hname hcont
  have hcoll : collapseNL (pre ++ startCh ::
      (nm ++ midCh :: (w1 ++ (dsp ++ (w2 ++ endCh :: post)))))
      = pre ++ startCh :: (nm ++ midCh :: (w1 ++ (dsp ++ (w2 ++ endCh :: post)))) := by
    apply collapseNL_id
    intro c hc
    simp only [List.mem_append, List.mem_cons] at hc
    rcases hc with h | h | h | h | h | h | h | h | h
    · exact (hpre c h).2
    · rw [h]; decide
    · exact (hname c h).1
    · rw [h]; decide
    · exact (hw1 c h).2
    · exact (hdsp c h).2
    · exact (hw2 c h).2
    · rw [h]; decide
    · exact hpost c h
  have hscan := scan_marker pre nm w1 dsp w2 post (fun c hc => (hpre c hc).1) hMM
    ((pre ++ startCh ::
      (nm ++ midCh :: (w1 ++ (dsp ++ (w2 ++ endCh :: post))))).length + 1)
    (Nat.lt_succ_self _)
  rw [linkify_efmt, goEfmt, goEfmt]
  have hcoll2 : collapseNL ((String.mk (pre ++ startCh ::
      (nm ++ midCh :: (w1 ++ (dsp ++ (w2 ++ endCh :: post)))))).toList)
      = pre ++ startCh :: (nm ++ midCh :: (w1 ++ (dsp ++ (w2 ++ endCh :: post)))) :=
    hcoll
  rw [hcoll2, linkify_linked]
  have hscan2 : scanAux ((String.mk (pre ++ startCh ::
        (nm ++ midCh :: (w1 ++ (dsp ++ (w2 ++ endCh :: post)))))).toList.length + 1)
      ((String.mk (pre ++ startCh ::
        (nm ++ midCh :: (w1 ++ (dsp ++ (w2 ++ endCh :: post)))))).toList)
      = (if pre = [] then [] else [Piece.text pre])
        ++ Piece.marker nm w1 dsp w2 :: scanAux (post.length + 1) post := hscan
  rw [hscan2]
  rw [linkify_linked]
  by_cases hp : pre = []
  · subst hp
    rw [if_pos rfl, List.nil_append]
    rw [joinPieces, renderPiece]
    apply congrArg (fun z => z ++ "</span>")
    apply congrArg (fun z => "<span class=\"fn\">" ++ z)
    rw [strEmptyAppend]
    rfl
  · rw [if_neg hp, List.singleton_append]
    rw [joinPieces, renderPiece, joinPieces, renderPiece]
    apply congrArg (fun z => z ++ "</span>")
    apply congrArg (fun z => "<span class=\"fn\">" ++ z)
    rfl

/-- Closed instance of the amended C3 statement at a concrete marker. -/
theorem C3_linkify_efmt_marker_witness :
    (['a'] : List Char) ≠ [] ∧
    linkify_efmt "/" (fun _ => none) (Efmt.text (String.mk (['b'] ++ startCh ::
        (['a'] ++ midCh :: ([' '] ++ (['d'] ++ ([] ++ endCh :: ['z'])))))))
      = "<span class=\"fn\">"
        ++ (String.mk ['b']
          ++ (String.mk [' '] ++ linkify_core "/" (fun _ => none)
              (String.mk ['a']) (String.mk ['d'])
              ++ String.mk [] ++ linkify_linked "/" (fun _ => none)
                (String.mk ['z'])))
        ++ "</span>" := by
  refine ⟨by decide, ?_⟩
  exact C3_linkify_efmt_marker "/" (fun _ => none) ['b'] ['a'] [' '] ['d'] []
    ['z'] (by decide) (by decide) (by decide) (by decide) (by decide)
    (by intro c hc; simp at hc; subst hc; decide)
    (by intro h2; rfl)
    (by decide) (by intro h2; cases h2) (by decide)

end DocGen
